import Mathlib

/-!
# Verification of the plug-and-play RAG ingestion-and-retrieval pipeline

A shallow embedding of the core pipeline of this repository:

* `app/database/csv_connector.py` — `CSVConnector` (load, per-column coercion,
  chunked fetch, text/metadata projection);
* `app/embeddings/manager.py` — `EmbeddingManager` (`add_documents`,
  `search_similar`, `_combine_text_fields`, `_clean_metadata`);
* `app/chat/rag_service.py` — `RAGService._ingest_csv_data`;
* `app/chat/history_manager.py` — `ChatHistoryManager.add_message`.

Python's dynamically typed values are modelled by the inductive type `PyVal`.
Machine floats are modelled as exact decimals `m / 10 ^ (k + 1)` (constructor
`PyVal.float m k`), which captures Python's shortest-decimal float printing
while staying inside exact arithmetic.  Fallible Python code is embedded in
`Except PyErr`.  External libraries (the `json` module, pandas coercions, the
ChromaDB nearest-neighbour query) are modelled by explicit Lean functions,
each documented at its definition.
-/

/-- A Python runtime value, as it occurs in records, metadata mappings and
parsed JSON in this code base.  `float m k` denotes the decimal
`m / 10 ^ (k + 1)`; every Python float prints with at least one fractional
digit, so the model always carries one.  `timestamp s` models a
`pandas.Timestamp` whose ISO representation is `s`. -/
inductive PyVal where
  | none
  | bool (b : Bool)
  | int (n : Int)
  | float (m : Int) (k : Nat)
  | str (s : String)
  | timestamp (s : String)
  | list (xs : List PyVal)
  | dict (fields : List (String × PyVal))
deriving Repr

/-- Python exception classes raised by the embedded code. -/
inductive PyErr where
  | typeError (msg : String)
  | valueError (msg : String)
  | indexError (msg : String)
  | keyError (key : String)
deriving Repr, DecidableEq

mutual

/-- Structural equality test on `PyVal` (Python `==` restricted to equal
runtime types; the cross-type numeric equalities `1 == 1.0` of Python are
not modelled — nothing in the verified code compares across types). -/
def pyBeq : PyVal → PyVal → Bool
  | .none, .none => true
  | .bool a, .bool b => a == b
  | .int a, .int b => a == b
  | .float a j, .float b l => a == b && j == l
  | .str a, .str b => a == b
  | .timestamp a, .timestamp b => a == b
  | .list a, .list b => pyBeqSeq a b
  | .dict a, .dict b => pyBeqFields a b
  | _, _ => false

/-- Elementwise equality of value lists. -/
def pyBeqSeq : List PyVal → List PyVal → Bool
  | [], [] => true
  | a :: as, b :: bs => pyBeq a b && pyBeqSeq as bs
  | _, _ => false

/-- Entrywise equality of field lists. -/
def pyBeqFields : List (String × PyVal) → List (String × PyVal) → Bool
  | [], [] => true
  | (k, v) :: as, (l, w) :: bs => k == l && pyBeq v w && pyBeqFields as bs
  | _, _ => false

end

instance : BEq PyVal := ⟨pyBeq⟩

/-- Digit character for `d < 10`. -/
def digitChar (d : Nat) : Char :=
  match d with
  | 0 => '0' | 1 => '1' | 2 => '2' | 3 => '3' | 4 => '4'
  | 5 => '5' | 6 => '6' | 7 => '7' | 8 => '8' | _ => '9'

/-- Decimal digits of `n`, most significant first (`0` renders as `"0"`).
Built on `Nat.digits` so that Mathlib's round-trip lemmas apply. -/
def natChars (n : Nat) : List Char :=
  if n = 0 then ['0'] else ((Nat.digits 10 n).reverse.map digitChar)

/-- Decimal rendering of an integer, Python `str(int)` style. -/
def intChars (n : Int) : List Char :=
  if n < 0 then '-' :: natChars n.natAbs else natChars n.natAbs

/-- Decimal rendering of the float `m / 10 ^ (k + 1)`: the digits of `|m|`,
left-padded with zeros to at least `k + 2` digits, with the decimal point
inserted before the last `k + 1` digits (so `float 5 1` renders `"0.05"`,
`float 0 0` renders `"0.0"`).  Models Python's `repr` of a float. -/
def floatChars (m : Int) (k : Nat) : List Char :=
  let ds := natChars m.natAbs
  let padded := List.replicate (k + 2 - ds.length) '0' ++ ds
  let intPart := padded.take (padded.length - (k + 1))
  let fracPart := padded.drop (padded.length - (k + 1))
  (if m < 0 then ['-'] else []) ++ intPart ++ '.' :: fracPart

mutual

/-- Model of Python `repr` on the values above (`repr` of a string adds
single quotes; containers render their elements with `repr`).  Quote
escaping inside `repr` of a string is not modelled — no claim depends
on it. -/
def pyRepr : PyVal → String
  | .none => "None"
  | .bool b => if b then "True" else "False"
  | .int n => ⟨intChars n⟩
  | .float m k => ⟨floatChars m k⟩
  | .str s => "'" ++ s ++ "'"
  | .timestamp s => "Timestamp('" ++ s ++ "')"
  | .list xs => "[" ++ pyReprSeq xs ++ "]"
  | .dict fs => "\x7b" ++ pyReprFields fs ++ "\x7d"

/-- `repr` of list elements, joined by `", "`. -/
def pyReprSeq : List PyVal → String
  | [] => ""
  | [x] => pyRepr x
  | x :: y :: t => pyRepr x ++ ", " ++ pyReprSeq (y :: t)

/-- `repr` of dict entries, joined by `", "`. -/
def pyReprFields : List (String × PyVal) → String
  | [] => ""
  | [(k, v)] => "'" ++ k ++ "': " ++ pyRepr v
  | (k, v) :: e :: t => "'" ++ k ++ "': " ++ pyRepr v ++ ", " ++ pyReprFields (e :: t)

end

/-- Model of Python `str` on the values above: identity on strings, `repr`
otherwise (for these types `str` and `repr` agree except on strings). -/
def pyStr : PyVal → String
  | .str s => s
  | v => pyRepr v

/-- Python `str.strip()`: drop leading and trailing whitespace. -/
def pyStrip (s : String) : String :=
  ⟨((s.data.dropWhile Char.isWhitespace).reverse.dropWhile
      Char.isWhitespace).reverse⟩

/-! ## Model of the Python `json` module

`_clean_metadata` serialises nested dicts with `json.dumps`, and
`CSVConnector._process_column` parses JSON columns with `json.loads`.
Both are modelled here: `jsonChars`/`jsonDumps` produce the canonical
`json.dumps` rendering (default separators `", "` and `": "`; quote and
backslash escaping; the additional `\uXXXX` escaping of control and
non-ASCII characters is simplified to verbatim output), `jsonLoads`
parses it back.  A `PyVal.timestamp` is not JSON-serialisable, so the
encoder returns `Option.none` for it, modelling the `TypeError` that
`json.dumps` raises. -/

/-- JSON string escaping of one character (quote and backslash). -/
def escChar (c : Char) : List Char :=
  if c = '"' ∨ c = '\\' then ['\\', c] else [c]

/-- JSON string escaping. -/
def escapeChars (s : List Char) : List Char := s.flatMap escChar

/-- A JSON object key with the `": "` separator that `json.dumps` emits. -/
def jsonKey (k : String) : List Char :=
  '"' :: escapeChars k.data ++ '"' :: ':' :: ' ' :: []

mutual

/-- Characters of `json.dumps` of a value; `Option.none` when the value is
not JSON-serialisable (contains a timestamp). -/
def jsonChars : PyVal → Option (List Char)
  | .none => some ("null".data)
  | .bool true => some ("true".data)
  | .bool false => some ("false".data)
  | .int n => some (intChars n)
  | .float m k => some (floatChars m k)
  | .str s => some ('"' :: escapeChars s.data ++ ['"'])
  | .timestamp _ => Option.none
  | .list [] => some ("[]".data)
  | .list (x :: t) =>
    match jsonChars x, jsonSeqChars t with
    | some cx, some ct => some ('[' :: cx ++ ct ++ [']'])
    | _, _ => Option.none
  | .dict [] => some ['\x7b', '\x7d']
  | .dict ((k, v) :: t) =>
    match jsonChars v, jsonFieldsChars t with
    | some cv, some ct => some ('\x7b' :: jsonKey k ++ cv ++ ct ++ ['\x7d'])
    | _, _ => Option.none

/-- Trailing list elements, each preceded by `", "`. -/
def jsonSeqChars : List PyVal → Option (List Char)
  | [] => some []
  | x :: t =>
    match jsonChars x, jsonSeqChars t with
    | some cx, some ct => some (',' :: ' ' :: cx ++ ct)
    | _, _ => Option.none

/-- Trailing object fields, each preceded by `", "`. -/
def jsonFieldsChars : List (String × PyVal) → Option (List Char)
  | [] => some []
  | (k, v) :: t =>
    match jsonChars v, jsonFieldsChars t with
    | some cv, some ct => some (',' :: ' ' :: jsonKey k ++ cv ++ ct)
    | _, _ => Option.none

end

/-- `json.dumps`, as a string. -/
def jsonDumps (v : PyVal) : Option String := (jsonChars v).map List.asString

/-- Inverse of `escChar` on escaped characters. -/
def unescChar (c : Char) : Option Char :=
  if c = '"' ∨ c = '\\' then some c else Option.none

/-- Parse a JSON string body up to its closing quote, undoing `escapeChars`. -/
def parseJStr : List Char → Option (List Char × List Char)
  | [] => Option.none
  | c :: rest =>
    if c = '"' then some ([], rest)
    else if c = '\\' then
      match rest with
      | [] => Option.none
      | c2 :: rest2 =>
        match unescChar c2, parseJStr rest2 with
        | some c', some (s, r) => some (c' :: s, r)
        | _, _ => Option.none
    else
      match parseJStr rest with
      | some (s, r) => some (c :: s, r)
      | _ => Option.none

/-- Numeric value of a digit character. -/
def digitVal (c : Char) : Nat := c.toNat - 48

/-- Value of a big-endian digit string. -/
def decValue (ds : List Char) : Nat := ds.foldl (fun a c => 10 * a + digitVal c) 0

/-- Parse a JSON number (integer, or decimal with a fractional part). -/
def parseJNum (s : List Char) : Option (PyVal × List Char) :=
  let neg := s.head? = some '-'
  let s1 := if neg then s.tail else s
  let ds1 := s1.takeWhile Char.isDigit
  let r1 := s1.dropWhile Char.isDigit
  if ds1.isEmpty then Option.none
  else
    let sgn : Int → Int := fun n => if neg then -n else n
    if r1.head? = some '.' then
      let r2 := r1.tail
      let ds2 := r2.takeWhile Char.isDigit
      let r3 := r2.dropWhile Char.isDigit
      if ds2.isEmpty then Option.none
      else some (.float (sgn (decValue (ds1 ++ ds2))) (ds2.length - 1), r3)
    else some (.int (sgn (decValue ds1)), r1)

mutual

/-- Fuel-indexed recursive-descent parser for the canonical `json.dumps`
rendering produced by `jsonChars`. -/
def parseJVal : Nat → List Char → Option (PyVal × List Char)
  | 0, _ => Option.none
  | fuel + 1, s =>
    match s with
    | [] => Option.none
    | c :: r =>
      if c = '"' then
        match parseJStr r with
        | some (cs, r') => some (.str ⟨cs⟩, r')
        | _ => Option.none
      else if c = '[' then
        if r.head? = some ']' then some (.list [], r.tail)
        else
          match parseJVal fuel r with
          | some (v, r1) =>
            match parseJItems fuel r1 with
            | some (vs, r2) => some (.list (v :: vs), r2)
            | _ => Option.none
          | _ => Option.none
      else if c = '\x7b' then
        if r.head? = some '\x7d' then some (.dict [], r.tail)
        else if r.head? = some '"' then
          match parseJStr r.tail with
          | some (kcs, r2) =>
            if r2.take 2 = [':', ' '] then
              match parseJVal fuel (r2.drop 2) with
              | some (v, r4) =>
                match parseJFields fuel r4 with
                | some (fs, r5) => some (.dict ((⟨kcs⟩, v) :: fs), r5)
                | _ => Option.none
              | _ => Option.none
            else Option.none
          | _ => Option.none
        else Option.none
      else if c = 'n' then
        if r.take 3 = ['u', 'l', 'l'] then some (.none, r.drop 3) else Option.none
      else if c = 't' then
        if r.take 3 = ['r', 'u', 'e'] then some (.bool true, r.drop 3) else Option.none
      else if c = 'f' then
        if r.take 4 = ['a', 'l', 's', 'e'] then some (.bool false, r.drop 4) else Option.none
      else parseJNum (c :: r)

/-- Parse the elements of a JSON array after the first, up to `]`. -/
def parseJItems : Nat → List Char → Option (List PyVal × List Char)
  | 0, _ => Option.none
  | fuel + 1, s =>
    if s.head? = some ']' then some ([], s.tail)
    else if s.take 2 = [',', ' '] then
      match parseJVal fuel (s.drop 2) with
      | some (v, r1) =>
        match parseJItems fuel r1 with
        | some (vs, r2) => some (v :: vs, r2)
        | _ => Option.none
      | _ => Option.none
    else Option.none

/-- Parse the fields of a JSON object after the first, up to the closing
brace. -/
def parseJFields : Nat → List Char → Option (List (String × PyVal) × List Char)
  | 0, _ => Option.none
  | fuel + 1, s =>
    if s.head? = some '\x7d' then some ([], s.tail)
    else if s.take 3 = [',', ' ', '"'] then
      match parseJStr (s.drop 3) with
      | some (kcs, r1) =>
        if r1.take 2 = [':', ' '] then
          match parseJVal fuel (r1.drop 2) with
          | some (v, r3) =>
            match parseJFields fuel r3 with
            | some (fs, r4) => some ((⟨kcs⟩, v) :: fs, r4)
            | _ => Option.none
          | _ => Option.none
        else Option.none
      | _ => Option.none
    else Option.none

end

mutual

/-- Parser fuel sufficient for one value (`parseJVal` consumes one unit per
nested value). -/
def fuelNeed : PyVal → Nat
  | .list xs => 1 + seqFuel xs
  | .dict fs => 1 + fieldsFuel fs
  | _ => 1

/-- Fuel sufficient for a tail of array elements. -/
def seqFuel : List PyVal → Nat
  | [] => 1
  | x :: t => fuelNeed x + seqFuel t

/-- Fuel sufficient for a tail of object fields. -/
def fieldsFuel : List (String × PyVal) → Nat
  | [] => 1
  | (_, v) :: t => fuelNeed v + fieldsFuel t

end

/-- `json.loads`, on complete inputs: parse with ample fuel and require the
whole input to be consumed. -/
def jsonLoads (s : String) : Option PyVal :=
  match parseJVal (s.length + 1) s.data with
  | some (v, []) => some v
  | _ => Option.none

namespace EmbeddingManager

/-- `EmbeddingManager._clean_metadata` (`app/embeddings/manager.py`):
per entry, lists/tuples become the `", "`-join of the `str` of their
elements, dicts become their `json.dumps` string, `None` entries are
dropped (`continue`), `str`/`int`/`float`/`bool` values are kept as they
are, and any other value (here: a timestamp) is replaced by its `str`.
`json.dumps` raises `TypeError` on a non-serialisable nested value, which
the method does not catch, so the embedding is fallible. -/
def cleanEntry (key : String) (value : PyVal) :
    Except PyErr (Option (String × PyVal)) :=
  match value with
  | .list xs => .ok (some (key, .str (String.intercalate ", " (xs.map pyStr))))
  | .dict fs =>
    match jsonDumps (.dict fs) with
    | some s => .ok (some (key, .str s))
    | Option.none => .error (.typeError "Object is not JSON serializable")
  | .none => .ok Option.none
  | .str s => .ok (some (key, .str s))
  | .int n => .ok (some (key, .int n))
  | .float m k => .ok (some (key, .float m k))
  | .bool b => .ok (some (key, .bool b))
  | v => .ok (some (key, .str (pyStr v)))

/-- The loop of `_clean_metadata` over the entries of the mapping, in
iteration order. -/
def cleanMetadata (metadata : List (String × PyVal)) :
    Except PyErr (List (String × PyVal)) :=
  match metadata with
  | [] => .ok []
  | (key, value) :: rest => do
    let head ← cleanEntry key value
    let tail ← cleanMetadata rest
    pure (head.toList ++ tail)

end EmbeddingManager

/-- `b` is an initial segment of `s`. -/
def segAt : List Char → List Char → Bool
  | [], _ => true
  | _ :: _, [] => false
  | a :: as, b :: bs => a == b && segAt as bs

/-- Substring test on strings (Python `needle in haystack`). -/
def strContainsSeg (s f : List Char) : Bool :=
  (List.range (s.length + 1)).any fun i => segAt f (s.drop i)

/-- Python's `in` operator, `field in container`, on the modelled values:
key test on dicts (unhashable keys raise `TypeError`), membership on
lists, substring test on strings (`TypeError` unless both are strings),
`TypeError` on non-iterable containers. -/
def pyContains (container field : PyVal) : Except PyErr Bool :=
  match container with
  | .dict d =>
    match field with
    | .str f => .ok (d.any fun kv => kv.1 == f)
    | .list _ => .error (.typeError "unhashable type: 'list'")
    | .dict _ => .error (.typeError "unhashable type: 'dict'")
    | _ => .ok false
  | .list xs => .ok (xs.any fun x => x == field)
  | .str s =>
    match field with
    | .str f => .ok (strContainsSeg s.data f.data)
    | _ => .error (.typeError "'in <string>' requires string as left operand")
  | _ => .error (.typeError "argument is not iterable")

/-- Python's subscript `container[field]` on the modelled values. -/
def pyIndex (container field : PyVal) : Except PyErr PyVal :=
  match container with
  | .dict d =>
    match field with
    | .str f =>
      match d.find? (fun kv => kv.1 == f) with
      | some kv => .ok kv.2
      | Option.none => .error (.keyError f)
    | _ => .error (.keyError "")
  | .list xs =>
    match field with
    | .int i =>
      if h : 0 ≤ i ∧ i.toNat < xs.length then .ok (xs.get ⟨i.toNat, h.2⟩)
      else .error (.indexError "list index out of range")
    | _ => .error (.typeError "list indices must be integers or slices")
  | .str _ => .error (.typeError "string indices must be integers")
  | _ => .error (.typeError "object is not subscriptable")

namespace EmbeddingManager

/-- The loop body of `_combine_text_fields`: the labelled pieces
`"field: value"` kept for each field that is in the document with a
non-`None` value whose stripped `str` is non-empty.  The `field in
document` test and the `document[field]` subscript follow Python's
dynamic semantics and can raise. -/
def combineParts (document : PyVal) : List PyVal → Except PyErr (List String)
  | [] => .ok []
  | field :: rest => do
    let c ← pyContains document field
    let piece ←
      if c then do
        let v ← pyIndex document field
        match v with
        | .none => pure (Option.none : Option String)
        | _ =>
          let value := pyStrip (pyStr v)
          pure (if value = "" then Option.none else some (pyStr field ++ ": " ++ value))
      else pure Option.none
    let tail ← combineParts document rest
    pure (piece.toList ++ tail)

/-- `EmbeddingManager._combine_text_fields`: the labelled pieces joined by
`" | "` (the pipe-join variant). -/
def combineTextFields (document : PyVal) (textFields : List PyVal) :
    Except PyErr String := do
  let parts ← combineParts document textFields
  pure (String.intercalate " | " parts)

/-- One record of the ChromaDB collection: `(embedding, document text,
metadata, id)` as passed to `collection.add`.  Ids are modelled as
naturals drawn from a counter (a model of `uuid.uuid4()` freshness). -/
structure ChromaEntry where
  id : Nat
  embedding : List Int
  document : String
  metadata : List (String × PyVal)

/-- The `EmbeddingManager` state: `collection` and `embedding_model` are
`None` until `initialize` has run; `nextId` models the uuid generator. -/
structure Manager where
  collection : Option (List ChromaEntry)
  embeddingModel : Option (String → List Int)
  nextId : Nat

/-- `dict.items()`; Python raises `AttributeError` when the value is not a
mapping (modelled by `typeError` — the distinction is irrelevant here). -/
def dictItems : PyVal → Except PyErr (List (String × PyVal))
  | .dict d => .ok d
  | _ => .error (.typeError "object has no attribute 'items'")

/-- The accumulation loop of `add_documents`: for each document, combine
its text fields; skip it when the combined text strips to empty;
otherwise record `(combined text, cleaned metadata)`.  Mirrors the
`for doc in documents` loop building `texts`, `metadatas`, `ids`. -/
def collectDocs (textFields : List PyVal) :
    List PyVal → Except PyErr (List (String × List (String × PyVal)))
  | [] => .ok []
  | doc :: rest => do
    let combined ← combineTextFields doc textFields
    if pyStrip combined = "" then collectDocs textFields rest
    else do
      let items ← dictItems doc
      let md ← cleanMetadata items
      let tail ← collectDocs textFields rest
      pure ((combined, md) :: tail)

/-- `EmbeddingManager.add_documents(documents, text_fields)`: raise
`ValueError` unless initialized; accumulate non-empty combined texts with
cleaned metadata and fresh ids; return `0` adding nothing when no text
survives; otherwise embed each text (the batch `encode` call), add the
`(embedding, text, metadata, id)` rows to the collection, and return the
number of texts added. -/
def addDocuments (m : Manager) (documents : List PyVal)
    (textFields : List PyVal) : Except PyErr (Manager × Nat) :=
  match m.collection, m.embeddingModel with
  | some entries, some embed => do
    let docs ← collectDocs textFields documents
    if docs.isEmpty then pure (m, 0)
    else
      let rows := docs.enum.map fun (i, d) =>
        ChromaEntry.mk (m.nextId + i) (embed d.1) d.1 d.2
      pure ({ m with collection := some (entries ++ rows),
                     nextId := m.nextId + docs.length }, docs.length)
  | _, _ => .error (.valueError "EmbeddingManager not properly initialized")

/-- Squared Euclidean distance between two embedding vectors — the model
of the ChromaDB distance score (non-negative, `0` iff identical on the
compared coordinates). -/
def sqDist (a b : List Int) : Nat :=
  ((a.zip b).map fun p => ((p.1 - p.2) * (p.1 - p.2)).toNat).sum

/-- Modelled external capability: `collection.query` of the vector store
returns the `n` stored entries nearest to the query embedding, ordered by
ascending distance. -/
def chromaQuery (qe : List Int) (n : Nat) (entries : List ChromaEntry) :
    List ChromaEntry :=
  (entries.insertionSort fun e1 e2 =>
    sqDist qe e1.embedding ≤ sqDist qe e2.embedding).take n

/-- One formatted result of `search_similar`: `content`, `metadata`,
`distance`, `id`. -/
structure SimilarDoc where
  content : String
  metadata : List (String × PyVal)
  distance : Nat
  id : Nat

/-- `EmbeddingManager.search_similar(query, n_results)`: raise `ValueError`
unless initialized; embed the query; query the collection for
`min(n_results, collection.count())` nearest neighbours; format each hit
as `{content, metadata, distance, id}`. -/
def searchSimilar (m : Manager) (query : String) (nResults : Nat) :
    Except PyErr (List SimilarDoc) :=
  match m.collection, m.embeddingModel with
  | some entries, some embed =>
    let qe := embed query
    let hits := chromaQuery qe (min nResults entries.length) entries
    .ok (hits.map fun e => SimilarDoc.mk e.document e.metadata (sqDist qe e.embedding) e.id)
  | _, _ => .error (.valueError "EmbeddingManager not properly initialized")

end EmbeddingManager

namespace CSVConnector

/-- `CSVColumnType` (`app/models.py`). -/
inductive ColumnType where
  | text | integer | float | datetime | boolean | json
deriving Repr, DecidableEq

/-- `CSVColumnConfig` (`app/models.py`), with its pydantic defaults. -/
structure ColumnConfig where
  name : String
  type : ColumnType := .text
  required : Bool := false
  default_value : Option PyVal := Option.none

/-- `CSVConfig` (`app/models.py`), with its pydantic defaults.  The
`delimiter`/`encoding` fields parameterise the external file parse and
carry no behaviour in the embedding. -/
structure Config where
  file_path : String
  has_header : Bool := true
  columns : List ColumnConfig
  text_columns : List String
  metadata_columns : Option (List String) := Option.none
  chunk_size : Nat := 1000
  skip_rows : Nat := 0
  max_rows : Option Nat := Option.none

/-- The parsed CSV file handed to the connector by `pd.read_csv`: header
names and data rows; a missing cell is `Option.none` (pandas `NaN`).
Cells are kept as source text — pandas dtype inference is abstracted
away, and the per-column coercions below work from the text. -/
structure RawFile where
  names : List String
  rows : List (List (Option String))

/-- A raw dataframe, column-oriented: column name and its cells. -/
def RawFrame := List (String × List (Option String))

/-- A processed dataframe: column name and coerced cells. -/
def ProcFrame := List (String × List PyVal)

/-- Model of `pd.read_csv` with the connector's read params: header names
from the file (or from the configured column names when
`has_header=False`), `skiprows` leading data rows dropped, at most
`nrows=max_rows` rows kept, transposed to columns. -/
def readCsv (cfg : Config) (file : RawFile) : RawFrame :=
  let names := if cfg.has_header then file.names else cfg.columns.map (·.name)
  let rows0 := file.rows.drop cfg.skip_rows
  let rows := match cfg.max_rows with
    | some n => rows0.take n
    | Option.none => rows0
  names.enum.map fun (j, name) => (name, rows.map fun r => r.getD j Option.none)

/-- `str(cell)` on a pandas cell: `NaN` stringifies to `"nan"`. -/
def cellStr : Option String → String
  | Option.none => "nan"
  | some s => s

/-- Model of `pd.to_numeric(·, errors='coerce')` on one text cell:
optional sign, digits, optional fractional digits; anything else (or a
missing cell) is `NaN` (`Option.none`). -/
def toNumericVal (s : List Char) : Option PyVal :=
  let neg := s.head? = some '-'
  let s1 := if neg ∨ s.head? = some '+' then s.tail else s
  let ds1 := s1.takeWhile Char.isDigit
  let r1 := s1.dropWhile Char.isDigit
  if ds1.isEmpty then Option.none
  else
    let sgn : Int → Int := fun n => if neg then -n else n
    match r1 with
    | [] => some (.int (sgn (decValue ds1)))
    | '.' :: r2 =>
      let ds2 := r2.takeWhile Char.isDigit
      let r3 := r2.dropWhile Char.isDigit
      if r3.isEmpty then
        if ds2.isEmpty then some (.float (sgn (decValue ds1 * 10)) 0)
        else some (.float (sgn (decValue (ds1 ++ ds2))) (ds2.length - 1))
      else Option.none
    | _ => Option.none

/-- Truncation toward zero of the decimal `m / 10 ^ (k + 1)` (Python
`astype(int)` on a float). -/
def truncDecimal (m : Int) (k : Nat) : Int :=
  let q : Nat := m.natAbs / 10 ^ (k + 1)
  if m < 0 then -(q : Int) else (q : Int)

/-- Integer column coercion:
`pd.to_numeric(col, errors='coerce').fillna(0).astype(int)` — missing or
unparsable cells become `0`, decimals truncate toward zero. -/
def intCell (c : Option String) : Int :=
  match c with
  | Option.none => 0
  | some s =>
    match toNumericVal (pyStrip s).data with
    | some (.int n) => n
    | some (.float m k) => truncDecimal m k
    | _ => 0

/-- Float column coercion:
`pd.to_numeric(col, errors='coerce').fillna(0.0)` — missing or
unparsable cells become `0.0`. -/
def floatCell (c : Option String) : PyVal :=
  match c with
  | Option.none => .float 0 0
  | some s =>
    match toNumericVal (pyStrip s).data with
    | some (.int n) => .float (n * 10) 0
    | some (.float m k) => .float m k
    | _ => .float 0 0

/-- Model of `pd.to_datetime(·, errors='coerce')` on one text cell: a
cell of shape `YYYY-MM-DD` (digits in those positions) parses to a
timestamp with that ISO text; anything else is `NaT` (`Option.none`).
The exact set of accepted formats of the external parser is irrelevant
to every claim; this keeps one accepted and one rejected shape. -/
def toDatetimeVal (s : String) : Option String :=
  match s.data with
  | [y1, y2, y3, y4, '-', m1, m2, '-', d1, d2] =>
    if [y1, y2, y3, y4, m1, m2, d1, d2].all Char.isDigit then some s else Option.none
  | _ => Option.none

/-- JSON column coercion, `safe_json_parse` inside `_process_column`:
missing or empty cells give `{}`, parse failures are caught and give
`{}`. -/
def safeJsonParse (c : Option String) : PyVal :=
  match c with
  | Option.none => .dict []
  | some s =>
    if s = "" then .dict []
    else
      match jsonLoads s with
      | some v => v
      | Option.none => .dict []

/-- `CSVConnector._process_column`: per-type coercion of every cell of a
column.  All coercions are total (`errors='coerce'` style), so the
`except` fallback of the source (fill with `default_value`, else
re-raise) is unreachable in the model. -/
def processColumn (cfg : ColumnConfig) (cells : List (Option String)) : List PyVal :=
  match cfg.type with
  | .text => cells.map fun c =>
      let s := cellStr c
      .str (if s = "nan" then "" else s)
  | .integer => cells.map fun c => .int (intCell c)
  | .float => cells.map floatCell
  | .datetime => cells.map fun c =>
      match c with
      | Option.none => PyVal.none
      | some s =>
        match toDatetimeVal s with
        | some iso => .timestamp iso
        | Option.none => PyVal.none
  | .boolean => cells.map fun c =>
      .bool (["true", "1", "yes", "y"].contains (cellStr c).toLower)
  | .json => cells.map safeJsonParse

/-- Column names of a frame. -/
def colNames (df : List (String × List PyVal)) : List String := df.map (·.1)

/-- Number of rows of a frame (`len(self.df)`, uniform column lengths). -/
def nRowsOf (df : List (String × List PyVal)) : Nat :=
  match df with
  | [] => 0
  | (_, cells) :: _ => cells.length

/-- A column not named in the configuration is left unprocessed (only a
warning is logged); its text cells pass through, missing cells are
`NaN`. -/
def passColumn (cells : List (Option String)) : List PyVal :=
  cells.map fun c =>
    match c with
    | Option.none => PyVal.none
    | some s => .str s

/-- The closing loop of `_process_dataframe`: for each configured column
that is `required` and absent from the (possibly already extended)
dataframe, add a constant column of the `default_value` when one is
declared, else raise
`ValueError("Required column ... missing and no default value provided")`. -/
def addRequired (acc : List (String × List PyVal)) :
    List ColumnConfig → Except PyErr (List (String × List PyVal))
  | [] => .ok acc
  | c :: rest =>
    if c.required && !((colNames acc).contains c.name) then
      match c.default_value with
      | some d => addRequired (acc ++ [(c.name, List.replicate (nRowsOf acc) d)]) rest
      | Option.none =>
        .error (.valueError ("Required column " ++ c.name ++ " missing and no default value provided"))
    else addRequired acc rest

/-- `CSVConnector._process_dataframe`: apply the per-column coercion to
every column that has a configuration (others pass through), then check
required columns. -/
def processDataframe (cfg : Config) (df : RawFrame) : Except PyErr ProcFrame :=
  let processed : List (String × List PyVal) := df.map fun nc =>
    match cfg.columns.find? (fun c => c.name == nc.1) with
    | some c => (nc.1, processColumn c nc.2)
    | Option.none => (nc.1, passColumn nc.2)
  addRequired processed cfg.columns

/-- `CSVConnector.connect`: parse the whole file with `pd.read_csv`,
store it as `self.df`, and process it.  The returned frame is the
connector's in-memory dataframe — it holds every row of the source. -/
def connect (cfg : Config) (file : RawFile) : Except PyErr ProcFrame :=
  processDataframe cfg (readCsv cfg file)

/-- Rows of the processed frame as records (`to_dict('records')`). -/
def recordsOf (df : ProcFrame) : List (List (String × PyVal)) :=
  (List.range (nRowsOf df)).map fun i => df.map fun nc => (nc.1, nc.2.getD i PyVal.none)

/-- The record clean-up loop shared by `fetch_data` and
`fetch_in_chunks`: `pd.isna` cells become `None`, timestamps become
their ISO string, everything else passes through. -/
def cleanRecord (r : List (String × PyVal)) : List (String × PyVal) :=
  r.map fun kv =>
    match kv.2 with
    | .none => (kv.1, PyVal.none)
    | .timestamp s => (kv.1, .str s)
    | v => (kv.1, v)

/-- Split a list into consecutive chunks of `n` (the
`range(0, total_rows, chunk_size)` slicing); a zero step would raise in
Python and yields nothing in the model. -/
def chunksOf (n : Nat) : List α → List (List α)
  | [] => []
  | x :: t =>
    if n = 0 then []
    else (x :: t).take n :: chunksOf n ((x :: t).drop n)
termination_by l => l.length
decreasing_by simp only [List.length_drop, List.length_cons]; omega

/-- `CSVConnector.fetch_in_chunks`: resolve the chunk size with Python's
`chunk_size or self.csv_config.chunk_size` (so an explicit `0` also
falls back to the configured size), slice the stored dataframe, and
clean each chunk's records. -/
def fetchInChunks (cfg : Config) (df : ProcFrame) (chunkSize : Option Nat) :
    List (List (List (String × PyVal))) :=
  let n := match chunkSize with
    | some k => if k = 0 then cfg.chunk_size else k
    | Option.none => cfg.chunk_size
  (chunksOf n (recordsOf df)).map fun chunk => chunk.map cleanRecord

/-- The piece-collecting loop of `CSVConnector.get_text_content`: for
each configured text column, in declared order, keep the stripped `str`
of a present, non-`None` value when it is non-empty. -/
def textPieces (record : List (String × PyVal)) : List String → List String
  | [] => []
  | col :: rest =>
    match record.find? (fun kv => kv.1 == col) with
    | some (_, .none) => textPieces record rest
    | Option.none => textPieces record rest
    | some (_, v) =>
      let t := pyStrip (pyStr v)
      if t = "" then textPieces record rest
      else t :: textPieces record rest

/-- `CSVConnector.get_text_content`: the pieces joined with a single
space. -/
def getTextContent (cfg : Config) (record : List (String × PyVal)) : String :=
  String.intercalate " " (textPieces record cfg.text_columns)

/-- `CSVConnector.get_metadata`: always the `source` and `file_path`
tags, then the configured metadata columns present in the record, then
`row_index` when the record has an `index` key.  (The Python dict
assignment is modelled as an association list built in the same
order.) -/
def getMetadata (cfg : Config) (record : List (String × PyVal)) :
    List (String × PyVal) :=
  [("source", PyVal.str "csv"), ("file_path", PyVal.str cfg.file_path)]
  ++ (match cfg.metadata_columns with
      | some cols => cols.filterMap fun col =>
          (record.find? (fun kv => kv.1 == col)).map fun kv => (col, kv.2)
      | Option.none => [])
  ++ (match record.find? (fun kv => kv.1 == "index") with
      | some kv => [("row_index", kv.2)]
      | Option.none => [])

end CSVConnector

namespace RAGService

/-- The record loop of `RAGService._ingest_csv_data`, threading the
injected embedding manager's state `σ` through its
`add_documents(documents, metadatas)` calls (`flush`): a record whose
`get_text_content` strips to empty is skipped; otherwise its text and
`get_metadata` are appended and the running count incremented; at 100
accumulated documents the batch is flushed and the accumulators reset;
a final partial batch is flushed after the loop. -/
def ingestRecords {σ : Type}
    (flush : σ → List String → List (List (String × PyVal)) → Except PyErr σ)
    (cfg : CSVConnector.Config) :
    List (List (String × PyVal)) → σ → Nat → List String →
    List (List (String × PyVal)) → Except PyErr (σ × Nat)
  | [], st, count, docs, metas =>
    if docs.isEmpty then .ok (st, count)
    else do
      let st' ← flush st docs metas
      .ok (st', count)
  | r :: rest, st, count, docs, metas =>
    let text := CSVConnector.getTextContent cfg r
    if pyStrip text = "" then ingestRecords flush cfg rest st count docs metas
    else
      let docs' := docs ++ [text]
      let metas' := metas ++ [CSVConnector.getMetadata cfg r]
      if docs'.length ≥ 100 then do
        let st' ← flush st docs' metas'
        ingestRecords flush cfg rest st' (count + 1) [] []
      else ingestRecords flush cfg rest st (count + 1) docs' metas'

/-- `RAGService._ingest_csv_data` on a connected connector: iterate the
chunks of `fetch_in_chunks()` (no explicit chunk size) record by
record.  Returns the final state and the reported
`Total records processed` count. -/
def ingestCsvData {σ : Type}
    (flush : σ → List String → List (List (String × PyVal)) → Except PyErr σ)
    (cfg : CSVConnector.Config) (df : CSVConnector.ProcFrame) (st : σ) :
    Except PyErr (σ × Nat) :=
  ingestRecords flush cfg (CSVConnector.fetchInChunks cfg df Option.none).flatten st 0 [] []

/-- The CSV branch of `RAGService.ingest_data_background`: the factory's
`create_connector` runs `connect()` (which loads and validates the whole
file) and only then `_ingest_csv_data` runs. -/
def runCsvIngestion {σ : Type}
    (flush : σ → List String → List (List (String × PyVal)) → Except PyErr σ)
    (cfg : CSVConnector.Config) (file : CSVConnector.RawFile) (st : σ) :
    Except PyErr (σ × Nat) := do
  let df ← CSVConnector.connect cfg file
  ingestCsvData flush cfg df st

/-- The texts of the records that survive the empty-text skip, in order:
exactly the documents the ingestion loop accumulates. -/
def keptTexts (cfg : CSVConnector.Config)
    (records : List (List (String × PyVal))) : List String :=
  records.filterMap fun r =>
    let t := CSVConnector.getTextContent cfg r
    if pyStrip t = "" then Option.none else some t

/-- A collecting sink: records every `add_documents(documents, metadatas)`
call, the dependency-injection shape the repository's own tests use
(`mock_embedding_manager.add_documents`). -/
def collectFlush (st : List (List String × List (List (String × PyVal))))
    (docs : List String) (metas : List (List (String × PyVal))) :
    Except PyErr (List (List String × List (List (String × PyVal)))) :=
  .ok (st ++ [(docs, metas)])

end RAGService

namespace ChatHistoryManager

/-- One chat message as persisted by `add_message`. -/
structure Message where
  role : String
  content : String
  timestamp : String
  metadata : List (String × PyVal)

/-- Filename sanitisation of `_get_user_history_file`: keep alphanumeric
characters, `-` and `_`. -/
def sanitizeName (user : String) : String :=
  ⟨user.data.filter fun c => c.isAlphanum || c = '-' || c = '_'⟩

/-- The persisted history files: safe name to message list.  A missing
key models both a missing and an unreadable file (`_load_history`
returns `[]` for either). -/
def Store := List (String × List Message)

/-- Write-through of `_save_history` into the store. -/
def setStore : List (String × List Message) → String → List Message →
    List (String × List Message)
  | [], k, v => [(k, v)]
  | (k', v') :: t, k, v =>
    if k' = k then (k, v) :: t else (k', v') :: setStore t k v

/-- `_load_history` through the store: a missing (or unreadable) file
loads as `[]`. -/
def loadFor (store : List (String × List Message)) (file : String) :
    List Message :=
  ((store.find? fun kv => kv.1 == file).map Prod.snd).getD []

/-- The `if len(history) > 100: history = history[-100:]` trim. -/
def truncate100 (l : List Message) : List Message :=
  if l.length > 100 then l.drop (l.length - 100) else l

/-- `ChatHistoryManager.add_message`: load the user's history, append the
new message, keep only the last 100 messages, save.  `saveFails` models
an I/O exception inside `_save_history`; the surrounding `try/except`
logs and swallows any exception, so the call never fails. -/
def addMessage (store : List (String × List Message)) (saveFails : Bool)
    (userName role content : String)
    (metadata : Option (List (String × PyVal))) (nowIso : String) :
    Except PyErr (List (String × List Message)) :=
  let file := sanitizeName userName
  let history := loadFor store file
  let message : Message := ⟨role, content, nowIso, metadata.getD []⟩
  let history := truncate100 (history ++ [message])
  if saveFails then .ok store
  else .ok (setStore store file history)

end ChatHistoryManager

/-- A store-safe scalar in the ChromaDB sense: string, int, float or
bool. -/
def isStoreScalar : PyVal → Bool
  | .str _ => true
  | .int _ => true
  | .float _ _ => true
  | .bool _ => true
  | _ => false

/-- The characters that may legally follow one encoded JSON value inside
a larger canonical encoding (separator or closing bracket), or the end
of input.  Rules out a digit or dot continuing a number literal. -/
def JDelim (rest : List Char) : Prop :=
  rest = [] ∨ ∃ c r, rest = c :: r ∧ (c = ',' ∨ c = ']' ∨ c = '\x7d')

/-- Structural induction for the nested inductive `PyVal`: containers
recurse into their members. -/
def PyVal.inductOn (P : PyVal → Prop)
    (h1 : P .none) (h2 : ∀ b, P (.bool b)) (h3 : ∀ n, P (.int n))
    (h4 : ∀ m k, P (.float m k)) (h5 : ∀ s, P (.str s))
    (h6 : ∀ s, P (.timestamp s))
    (h7 : ∀ xs, (∀ x ∈ xs, P x) → P (.list xs))
    (h8 : ∀ fs, (∀ kv ∈ fs, P kv.2) → P (.dict fs)) : ∀ v, P v
  | .none => h1
  | .bool b => h2 b
  | .int n => h3 n
  | .float m k => h4 m k
  | .str s => h5 s
  | .timestamp s => h6 s
  | .list xs => h7 xs (fun x hx =>
      PyVal.inductOn P h1 h2 h3 h4 h5 h6 h7 h8 x)
  | .dict fs => h8 fs (fun kv hkv =>
      PyVal.inductOn P h1 h2 h3 h4 h5 h6 h7 h8 kv.2)
termination_by v => sizeOf v
decreasing_by
  · have := List.sizeOf_lt_of_mem hx
    simp only [PyVal.list.sizeOf_spec]
    omega
  · have h := List.sizeOf_lt_of_mem hkv
    have h2 : sizeOf kv.2 < sizeOf kv := by
      obtain ⟨a, b⟩ := kv
      simp only [Prod.mk.sizeOf_spec]
      omega
    simp only [PyVal.dict.sizeOf_spec]
    omega

/-! ## Lemmas: decimal digit strings -/

theorem isDigit_digitChar (d : Nat) (h : d < 10) : (digitChar d).isDigit = true := by
  interval_cases d <;> rfl

theorem digitVal_digitChar (d : Nat) (h : d < 10) : digitVal (digitChar d) = d := by
  interval_cases d <;> rfl

theorem digitChar_ne_dash (d : Nat) (h : d < 10) : digitChar d ≠ '-' := by
  interval_cases d <;> decide

theorem natChars_ne_nil (n : Nat) : natChars n ≠ [] := by
  unfold natChars
  split
  · simp
  · next h =>
    simp only [ne_eq, List.map_eq_nil_iff, List.reverse_eq_nil_iff]
    exact Nat.digits_ne_nil_iff_ne_zero.mpr h

theorem natChars_digits (n : Nat) : ∀ c ∈ natChars n, c.isDigit = true := by
  intro c hc
  unfold natChars at hc
  split at hc
  · simp at hc
    subst hc; rfl
  · simp only [List.mem_map, List.mem_reverse] at hc
    obtain ⟨d, hd, rfl⟩ := hc
    exact isDigit_digitChar d (Nat.digits_lt_base (by norm_num) hd)

theorem foldl_digits_map (L : List Nat) (hL : ∀ d ∈ L, d < 10) :
    ∀ a : Nat, (L.map digitChar).foldl (fun acc c => 10 * acc + digitVal c) a =
      L.foldl (fun acc d => 10 * acc + d) a := by
  induction L with
  | nil => intro a; rfl
  | cons d t ih =>
    intro a
    simp only [List.map_cons, List.foldl_cons]
    rw [digitVal_digitChar d (hL d (by simp))]
    exact ih (fun x hx => hL x (by simp [hx])) _

theorem foldr_ofDigits (L : List Nat) :
    L.foldr (fun d a => 10 * a + d) 0 = Nat.ofDigits 10 L := by
  induction L with
  | nil => rfl
  | cons d t ih =>
    simp only [List.foldr_cons, ih, Nat.ofDigits_cons]
    omega

theorem decValue_natChars (n : Nat) : decValue (natChars n) = n := by
  unfold natChars decValue
  split
  · next h => subst h; rfl
  · rw [foldl_digits_map _ (fun d hd => Nat.digits_lt_base (by norm_num)
      (List.mem_reverse.mp hd))]
    rw [List.foldl_reverse, foldr_ofDigits, Nat.ofDigits_digits]

theorem decValue_replicate_zero (j : Nat) (l : List Char) :
    decValue (List.replicate j '0' ++ l) = decValue l := by
  unfold decValue
  rw [List.foldl_append]
  congr 1
  induction j with
  | zero => rfl
  | succ i ih => simpa [List.replicate_succ] using ih

theorem takeWhile_all_append (p : Char → Bool) (ds rest : List Char)
    (h : ∀ c ∈ ds, p c = true)
    (h2 : ∀ c r, rest = c :: r → p c = false) :
    (ds ++ rest).takeWhile p = ds ∧ (ds ++ rest).dropWhile p = rest := by
  induction ds with
  | nil =>
    simp only [List.nil_append]
    cases rest with
    | nil => simp
    | cons c r =>
      rw [List.takeWhile_cons, List.dropWhile_cons, h2 c r rfl]
      simp
  | cons d t ih =>
    have hd : p d = true := h d (by simp)
    simp only [List.cons_append, List.takeWhile_cons, List.dropWhile_cons, hd]
    have := ih (fun c hc => h c (by simp [hc]))
    simp only [if_true]
    exact ⟨by rw [this.1], by rw [this.2]⟩

theorem digit_ne_dash (c : Char) (h : c.isDigit = true) : ¬(c = '-') := by
  intro hc; subst hc; simp [Char.isDigit] at h

theorem digit_ne_plus (c : Char) (h : c.isDigit = true) : ¬(c = '+') := by
  intro hc; subst hc; simp [Char.isDigit] at h

theorem JDelim_not_digit (rest : List Char) (h : JDelim rest) :
    ∀ c r, rest = c :: r → c.isDigit = false := by
  intro c r hr
  rcases h with h | ⟨c', r', hr', hc⟩
  · simp [hr] at h
  · rw [hr] at hr'
    obtain ⟨rfl, rfl⟩ : c = c' ∧ r = r' := by
      constructor <;> [exact (List.cons.injEq _ _ _ _ ▸ hr').1;
        exact (List.cons.injEq _ _ _ _ ▸ hr').2]
    rcases hc with rfl | rfl | rfl <;> rfl

theorem parseJStr_cons (c : Char) (rest : List Char) :
    parseJStr (c :: rest) =
      if c = '"' then some ([], rest)
      else if c = '\\' then
        match rest with
        | [] => Option.none
        | c2 :: rest2 =>
          match unescChar c2, parseJStr rest2 with
          | some c', some (s, r) => some (c' :: s, r)
          | _, _ => Option.none
      else
        match parseJStr rest with
        | some (s, r) => some (c :: s, r)
        | _ => Option.none := by
  rw [parseJStr.eq_def]

theorem parseJStr_escape (s rest : List Char) :
    parseJStr (escapeChars s ++ '"' :: rest) = some (s, rest) := by
  induction s with
  | nil => rw [escapeChars]; simp [parseJStr_cons]
  | cons c t ih =>
    by_cases hc : c = '"' ∨ c = '\\'
    · have he : escapeChars (c :: t) = '\\' :: c :: escapeChars t := by
        simp [escapeChars, escChar, hc]
      rw [he, List.cons_append, List.cons_append, parseJStr_cons]
      rw [if_neg (by decide), if_pos rfl]
      have hu : unescChar c = some c := by simp [unescChar, hc]
      simp only [hu, ih]
    · push_neg at hc
      have he : escapeChars (c :: t) = c :: escapeChars t := by
        simp [escapeChars, escChar, hc.1, hc.2]
      rw [he, List.cons_append, parseJStr_cons]
      rw [if_neg hc.1, if_neg hc.2]
      simp only [ih]

theorem natChars_not_empty (n : Nat) : (natChars n).isEmpty = false := by
  have := natChars_ne_nil n
  cases hnc : natChars n with
  | nil => exact absurd hnc this
  | cons c t => rfl

theorem parseJNum_digits (ds rest : List Char) (hne : ds ≠ [])
    (hd : ∀ c ∈ ds, c.isDigit = true) (hrest : JDelim rest) :
    parseJNum (ds ++ rest) = some (.int (decValue ds), rest) := by
  obtain ⟨c0, t0, rfl⟩ : ∃ c0 t0, ds = c0 :: t0 := by
    cases ds with
    | nil => exact absurd rfl hne
    | cons a b => exact ⟨a, b, rfl⟩
  have hc0 : c0.isDigit = true := hd c0 (by simp)
  have hsplit := takeWhile_all_append Char.isDigit (c0 :: t0) rest hd
    (JDelim_not_digit rest hrest)
  have hneg : ¬((c0 :: t0 ++ rest).head? = some '-') := by
    simp only [List.cons_append, List.head?_cons, Option.some.injEq]
    exact digit_ne_dash c0 hc0
  have hdot : ¬(rest.head? = some '.') := by
    rcases hrest with rfl | ⟨c, r, rfl, hc⟩
    · simp
    · rcases hc with rfl | rfl | rfl <;> simp
  simp only [parseJNum, if_neg hneg]
  rw [hsplit.1, hsplit.2]
  simp only [List.isEmpty_cons, Bool.false_eq_true, if_false]
  rw [if_neg hdot]

theorem parseJNum_intChars (n : Int) (rest : List Char) (h : JDelim rest) :
    parseJNum (intChars n ++ rest) = some (.int n, rest) := by
  by_cases hn : n < 0
  · rw [intChars, if_pos hn, List.cons_append]
    have hsplit := takeWhile_all_append Char.isDigit (natChars n.natAbs) rest
      (natChars_digits _) (JDelim_not_digit rest h)
    have hneg : ('-' :: (natChars n.natAbs ++ rest)).head? = some '-' := rfl
    simp only [parseJNum, hneg, if_pos rfl, List.tail_cons, if_true]
    rw [hsplit.1, hsplit.2]
    rw [if_neg (by simp [natChars_not_empty])]
    have hval : decValue (natChars n.natAbs) = n.natAbs := decValue_natChars _
    have hdot : ¬(rest.head? = some '.') := by
      rcases h with rfl | ⟨c, r, rfl, hc⟩
      · simp
      · rcases hc with rfl | rfl | rfl <;> simp
    rw [if_neg hdot]
    simp only [Option.some.injEq, Prod.mk.injEq, PyVal.int.injEq, hval]
    exact ⟨by omega, trivial⟩
  · rw [intChars, if_neg hn]
    rw [parseJNum_digits (natChars n.natAbs) rest (natChars_ne_nil _)
      (natChars_digits _) h]
    rw [decValue_natChars]
    have : ((n.natAbs : Nat) : Int) = n := Int.natAbs_of_nonneg (le_of_not_lt hn)
    rw [this]

theorem parseJNum_floatChars (m : Int) (k : Nat) (rest : List Char) (h : JDelim rest) :
    parseJNum (floatChars m k ++ rest) = some (.float m k, rest) := by
  have hdsne := natChars_ne_nil m.natAbs
  have hdslen : 1 ≤ (natChars m.natAbs).length := List.length_pos.mpr hdsne
  set ds := natChars m.natAbs with hds
  set padded := List.replicate (k + 2 - ds.length) '0' ++ ds with hpad
  have hdig : ∀ c ∈ padded, c.isDigit = true := by
    intro c hc
    rcases List.mem_append.mp hc with hc | hc
    · rw [List.eq_of_mem_replicate hc]; rfl
    · exact natChars_digits _ c hc
  have hlen : padded.length = (k + 2 - ds.length) + ds.length := by
    rw [hpad]; simp
  have hplen : k + 2 ≤ padded.length := by omega
  set ip := padded.take (padded.length - (k + 1)) with hip
  set fp := padded.drop (padded.length - (k + 1)) with hfp
  have hipfp : ip ++ fp = padded := List.take_append_drop _ _
  have hiplen : ip.length = padded.length - (k + 1) := by
    rw [hip, List.length_take]; omega
  have hfplen : fp.length = k + 1 := by
    rw [hfp, List.length_drop]
    omega
  have hipne : ip ≠ [] := by
    intro hh
    rw [hh] at hiplen
    simp only [List.length_nil] at hiplen
    omega
  have hfpne : fp ≠ [] := by
    intro hh
    rw [hh] at hfplen
    simp at hfplen
  have hipdig : ∀ c ∈ ip, c.isDigit = true := fun c hc =>
    hdig c (by rw [← hipfp]; exact List.mem_append_left _ hc)
  have hfpdig : ∀ c ∈ fp, c.isDigit = true := fun c hc =>
    hdig c (by rw [← hipfp]; exact List.mem_append_right _ hc)
  have hvalue : decValue (ip ++ fp) = m.natAbs := by
    rw [hipfp, hpad, decValue_replicate_zero, hds, decValue_natChars]
  have hfc : floatChars m k = (if m < 0 then ['-'] else []) ++ ip ++ '.' :: fp := rfl
  have hsplit1 := takeWhile_all_append Char.isDigit ip ('.' :: (fp ++ rest)) hipdig
    (by intro c r hcr; cases hcr; rfl)
  have hsplit2 := takeWhile_all_append Char.isDigit fp rest hfpdig
    (JDelim_not_digit rest h)
  have hipapp : (ip ++ '.' :: fp) ++ rest = ip ++ '.' :: (fp ++ rest) := by simp
  have hipem : ip.isEmpty = false := by
    obtain ⟨a, b, hab⟩ := List.exists_cons_of_ne_nil hipne
    rw [hab]; rfl
  have hfpem : fp.isEmpty = false := by
    obtain ⟨a, b, hab⟩ := List.exists_cons_of_ne_nil hfpne
    rw [hab]; rfl
  by_cases hm : m < 0
  · rw [hfc, if_pos hm]
    have hshape : ['-'] ++ ip ++ '.' :: fp ++ rest = '-' :: (ip ++ '.' :: (fp ++ rest)) := by
      simp
    rw [hshape]
    have hneg : ('-' :: (ip ++ '.' :: (fp ++ rest))).head? = some '-' := rfl
    simp only [parseJNum, hneg, if_pos rfl, List.tail_cons, if_true]
    rw [hsplit1.1, hsplit1.2]
    rw [if_neg (by simp [hipem])]
    rw [if_pos (show ('.' :: (fp ++ rest)).head? = some '.' from rfl)]
    simp only [List.tail_cons]
    rw [hsplit2.1, hsplit2.2]
    rw [if_neg (by simp [hfpem])]
    simp only [Option.some.injEq, Prod.mk.injEq, PyVal.float.injEq, hvalue, hfplen]
    exact ⟨⟨by omega, by omega⟩, trivial⟩
  · rw [hfc, if_neg hm]
    have hshape : [] ++ ip ++ '.' :: fp ++ rest = ip ++ '.' :: (fp ++ rest) := by
      simp
    rw [hshape]
    obtain ⟨c0, t0, hip0⟩ := List.exists_cons_of_ne_nil hipne
    have hc0 : c0.isDigit = true := hipdig c0 (by rw [hip0]; simp)
    have hneg : ¬((ip ++ '.' :: (fp ++ rest)).head? = some '-') := by
      rw [hip0]
      simp only [List.cons_append, List.head?_cons, Option.some.injEq]
      exact digit_ne_dash c0 hc0
    simp only [parseJNum, if_neg hneg]
    rw [hsplit1.1, hsplit1.2]
    rw [if_neg (by simp [hipem])]
    rw [if_pos (show ('.' :: (fp ++ rest)).head? = some '.' from rfl)]
    simp only [List.tail_cons]
    rw [hsplit2.1, hsplit2.2]
    rw [if_neg (by simp [hfpem])]
    simp only [Option.some.injEq, Prod.mk.injEq, PyVal.float.injEq, hvalue, hfplen]
    exact ⟨⟨by omega, by omega⟩, trivial⟩

theorem fuelNeed_pos (v : PyVal) : 1 ≤ fuelNeed v := by
  cases v <;> simp [fuelNeed]

theorem seqFuel_pos (xs : List PyVal) : 1 ≤ seqFuel xs := by
  cases xs with
  | nil => simp [seqFuel]
  | cons x t => simp [seqFuel]; exact le_add_right (fuelNeed_pos x)

theorem fieldsFuel_pos (fs : List (String × PyVal)) : 1 ≤ fieldsFuel fs := by
  cases fs with
  | nil => simp [fieldsFuel]
  | cons e t =>
    obtain ⟨k, v⟩ := e
    simp [fieldsFuel]
    exact le_add_right (fuelNeed_pos v)

theorem digit_ne_specials (c : Char) (h : c.isDigit = true) :
    c ≠ '"' ∧ c ≠ '[' ∧ c ≠ '\x7b' ∧ c ≠ 'n' ∧ c ≠ 't' ∧ c ≠ 'f' ∧
    c ≠ ']' ∧ c ≠ '\x7d' := by
  refine ⟨?_, ?_, ?_, ?_, ?_, ?_, ?_, ?_⟩ <;>
    (intro h'; subst h'; exact absurd h (by decide))

theorem intChars_head (n : Int) :
    ∃ c cs, intChars n = c :: cs ∧ (c = '-' ∨ c.isDigit = true) := by
  rw [intChars]
  by_cases hn : n < 0
  · exact ⟨'-', natChars n.natAbs, by rw [if_pos hn], Or.inl rfl⟩
  · obtain ⟨c0, t0, h0⟩ := List.exists_cons_of_ne_nil (natChars_ne_nil n.natAbs)
    exact ⟨c0, t0, by rw [if_neg hn, h0],
      Or.inr (natChars_digits _ c0 (by rw [h0]; simp))⟩

theorem floatChars_head (m : Int) (k : Nat) :
    ∃ c cs, floatChars m k = c :: cs ∧ (c = '-' ∨ c.isDigit = true) := by
  have hdslen : 1 ≤ (natChars m.natAbs).length :=
    List.length_pos.mpr (natChars_ne_nil m.natAbs)
  set ds := natChars m.natAbs with hds
  set padded := List.replicate (k + 2 - ds.length) '0' ++ ds with hpad
  have hlen : padded.length = (k + 2 - ds.length) + ds.length := by
    rw [hpad]; simp
  have hplen : k + 2 ≤ padded.length := by omega
  set ip := padded.take (padded.length - (k + 1)) with hip
  have hiplen : ip.length = padded.length - (k + 1) := by
    rw [hip, List.length_take]; omega
  have hipne : ip ≠ [] := by
    intro hh
    rw [hh] at hiplen
    simp only [List.length_nil] at hiplen
    omega
  obtain ⟨c0, t0, h0⟩ := List.exists_cons_of_ne_nil hipne
  have hc0dig : c0.isDigit = true := by
    have hmem : c0 ∈ padded := by
      have : c0 ∈ ip := by rw [h0]; simp
      exact List.mem_of_mem_take this
    rcases List.mem_append.mp hmem with hc | hc
    · rw [List.eq_of_mem_replicate hc]; rfl
    · exact natChars_digits _ c0 hc
  have hfc : floatChars m k =
      (if m < 0 then ['-'] else []) ++ ip ++ '.' :: padded.drop (padded.length - (k + 1)) := rfl
  by_cases hm : m < 0
  · refine ⟨'-', ip ++ '.' :: padded.drop (padded.length - (k + 1)), ?_, Or.inl rfl⟩
    rw [hfc, if_pos hm]
    simp
  · refine ⟨c0, t0 ++ '.' :: padded.drop (padded.length - (k + 1)), ?_, Or.inr hc0dig⟩
    rw [hfc, if_neg hm, List.nil_append, h0]
    simp

theorem parseJVal_at_num (f : Nat) (c : Char) (r : List Char)
    (hc : c = '-' ∨ c.isDigit = true) :
    parseJVal (f + 1) (c :: r) = parseJNum (c :: r) := by
  have hne : c ≠ '"' ∧ c ≠ '[' ∧ c ≠ '\x7b' ∧ c ≠ 'n' ∧ c ≠ 't' ∧ c ≠ 'f' := by
    rcases hc with rfl | hd
    · exact ⟨by decide, by decide, by decide, by decide, by decide, by decide⟩
    · have := digit_ne_specials c hd
      exact ⟨this.1, this.2.1, this.2.2.1, this.2.2.2.1, this.2.2.2.2.1,
        this.2.2.2.2.2.1⟩
  simp only [parseJVal]
  rw [if_neg hne.1, if_neg hne.2.1, if_neg hne.2.2.1, if_neg hne.2.2.2.1,
    if_neg hne.2.2.2.2.1, if_neg hne.2.2.2.2.2]

theorem jsonChars_head (v : PyVal) (cs : List Char) (h : jsonChars v = some cs) :
    ∃ c cs', cs = c :: cs' ∧ c ≠ ']' ∧ c ≠ '\x7d' := by
  cases v with
  | none =>
    simp only [jsonChars, Option.some.injEq] at h
    exact ⟨'n', _, h.symm, by decide, by decide⟩
  | bool b =>
    cases b <;> simp only [jsonChars, Option.some.injEq] at h <;>
      exact ⟨_, _, h.symm, by decide, by decide⟩
  | int n =>
    simp only [jsonChars, Option.some.injEq] at h
    obtain ⟨c, cs', hc, hcd⟩ := intChars_head n
    refine ⟨c, cs', by rw [← h, hc], ?_, ?_⟩ <;>
      (rcases hcd with rfl | hd
       · decide
       · first
         | exact (digit_ne_specials c hd).2.2.2.2.2.2.1
         | exact (digit_ne_specials c hd).2.2.2.2.2.2.2)
  | float m k =>
    simp only [jsonChars, Option.some.injEq] at h
    obtain ⟨c, cs', hc, hcd⟩ := floatChars_head m k
    refine ⟨c, cs', by rw [← h, hc], ?_, ?_⟩ <;>
      (rcases hcd with rfl | hd
       · decide
       · first
         | exact (digit_ne_specials c hd).2.2.2.2.2.2.1
         | exact (digit_ne_specials c hd).2.2.2.2.2.2.2)
  | str s =>
    simp only [jsonChars, Option.some.injEq] at h
    exact ⟨'"', _, h.symm, by decide, by decide⟩
  | timestamp s => simp [jsonChars] at h
  | list xs =>
    cases xs with
    | nil =>
      simp only [jsonChars, Option.some.injEq] at h
      exact ⟨'[', _, h.symm, by decide, by decide⟩
    | cons x t =>
      simp only [jsonChars] at h
      cases hx : jsonChars x with
      | none => rw [hx] at h; simp at h
      | some cx =>
        cases ht : jsonSeqChars t with
        | none => rw [hx, ht] at h; simp at h
        | some ct =>
          rw [hx, ht] at h
          simp only [Option.some.injEq] at h
          exact ⟨'[', _, h.symm, by decide, by decide⟩
  | dict fs =>
    cases fs with
    | nil =>
      simp only [jsonChars, Option.some.injEq] at h
      exact ⟨'\x7b', _, h.symm, by decide, by decide⟩
    | cons e t =>
      obtain ⟨k, v⟩ := e
      simp only [jsonChars] at h
      cases hx : jsonChars v with
      | none => rw [hx] at h; simp at h
      | some cv =>
        cases ht : jsonFieldsChars t with
        | none => rw [hx, ht] at h; simp at h
        | some ct =>
          rw [hx, ht] at h
          simp only [Option.some.injEq] at h
          exact ⟨'\x7b', _, h.symm, by decide, by decide⟩

theorem JDelim_seq (t : List PyVal) (ct rest : List Char)
    (h : jsonSeqChars t = some ct) : JDelim (ct ++ ']' :: rest) := by
  cases t with
  | nil =>
    simp only [jsonSeqChars, Option.some.injEq] at h
    rw [← h]
    exact Or.inr ⟨']', rest, rfl, Or.inr (Or.inl rfl)⟩
  | cons x t =>
    simp only [jsonSeqChars] at h
    cases hx : jsonChars x with
    | none => rw [hx] at h; simp at h
    | some cx =>
      cases ht : jsonSeqChars t with
      | none => rw [hx, ht] at h; simp at h
      | some ct' =>
        rw [hx, ht] at h
        simp only [Option.some.injEq] at h
        rw [← h]
        exact Or.inr ⟨',', _, rfl, Or.inl rfl⟩

theorem JDelim_fields (t : List (String × PyVal)) (ct rest : List Char)
    (h : jsonFieldsChars t = some ct) : JDelim (ct ++ '\x7d' :: rest) := by
  cases t with
  | nil =>
    simp only [jsonFieldsChars, Option.some.injEq] at h
    rw [← h]
    exact Or.inr ⟨'\x7d', rest, rfl, Or.inr (Or.inr rfl)⟩
  | cons e t =>
    obtain ⟨k, v⟩ := e
    simp only [jsonFieldsChars] at h
    cases hx : jsonChars v with
    | none => rw [hx] at h; simp at h
    | some cv =>
      cases ht : jsonFieldsChars t with
      | none => rw [hx, ht] at h; simp at h
      | some ct' =>
        rw [hx, ht] at h
        simp only [Option.some.injEq] at h
        rw [← h]
        exact Or.inr ⟨',', _, rfl, Or.inl rfl⟩

theorem parseJVal_null_step (f : Nat) (rest : List Char) :
    parseJVal (f + 1) ('n' :: 'u' :: 'l' :: 'l' :: rest) = some (.none, rest) := rfl

theorem parseJVal_true_step (f : Nat) (rest : List Char) :
    parseJVal (f + 1) ('t' :: 'r' :: 'u' :: 'e' :: rest) = some (.bool true, rest) := rfl

theorem parseJVal_false_step (f : Nat) (rest : List Char) :
    parseJVal (f + 1) ('f' :: 'a' :: 'l' :: 's' :: 'e' :: rest) = some (.bool false, rest) := rfl

theorem parseJVal_str_step (f : Nat) (X : List Char) :
    parseJVal (f + 1) ('"' :: X) =
      (match parseJStr X with
       | some (cs, r') => some (.str ⟨cs⟩, r')
       | _ => Option.none) := rfl

theorem parseJVal_emptyList_step (f : Nat) (rest : List Char) :
    parseJVal (f + 1) ('[' :: ']' :: rest) = some (.list [], rest) := rfl

theorem parseJVal_list_step (f : Nat) (X : List Char) :
    parseJVal (f + 1) ('[' :: X) =
      (if X.head? = some ']' then some (.list [], X.tail)
       else
        match parseJVal f X with
        | some (v, r1) =>
          match parseJItems f r1 with
          | some (vs, r2) => some (.list (v :: vs), r2)
          | _ => Option.none
        | _ => Option.none) := rfl

theorem parseJVal_dict_step (f : Nat) (X : List Char) :
    parseJVal (f + 1) ('\x7b' :: X) =
      (if X.head? = some '\x7d' then some (.dict [], X.tail)
       else if X.head? = some '"' then
        match parseJStr X.tail with
        | some (kcs, r2) =>
          if r2.take 2 = [':', ' '] then
            match parseJVal f (r2.drop 2) with
            | some (v, r4) =>
              match parseJFields f r4 with
              | some (fs, r5) => some (.dict ((⟨kcs⟩, v) :: fs), r5)
              | _ => Option.none
            | _ => Option.none
          else Option.none
        | _ => Option.none
       else Option.none) := rfl

theorem parseJItems_nil_step (f : Nat) (rest : List Char) :
    parseJItems (f + 1) (']' :: rest) = some ([], rest) := rfl

theorem parseJItems_cons_step (f : Nat) (X : List Char) :
    parseJItems (f + 1) (',' :: ' ' :: X) =
      (match parseJVal f X with
       | some (v, r1) =>
         match parseJItems f r1 with
         | some (vs, r2) => some (v :: vs, r2)
         | _ => Option.none
       | _ => Option.none) := rfl

theorem parseJFields_nil_step (f : Nat) (rest : List Char) :
    parseJFields (f + 1) ('\x7d' :: rest) = some ([], rest) := rfl

theorem parseJFields_cons_step (f : Nat) (Y : List Char) :
    parseJFields (f + 1) (',' :: ' ' :: '"' :: Y) =
      (match parseJStr Y with
       | some (kcs, r1) =>
         if r1.take 2 = [':', ' '] then
           match parseJVal f (r1.drop 2) with
           | some (v, r3) =>
             match parseJFields f r3 with
             | some (fs, r4) => some ((⟨kcs⟩, v) :: fs, r4)
             | _ => Option.none
           | _ => Option.none
         else Option.none
       | _ => Option.none) := rfl

theorem parse_jsonChars (fuel : Nat) :
    (∀ v cs rest, jsonChars v = some cs → fuelNeed v ≤ fuel → JDelim rest →
      parseJVal fuel (cs ++ rest) = some (v, rest)) ∧
    (∀ xs cs rest, jsonSeqChars xs = some cs → seqFuel xs ≤ fuel → JDelim rest →
      parseJItems fuel (cs ++ ']' :: rest) = some (xs, rest)) ∧
    (∀ fs cs rest, jsonFieldsChars fs = some cs → fieldsFuel fs ≤ fuel → JDelim rest →
      parseJFields fuel (cs ++ '\x7d' :: rest) = some (fs, rest)) := by
  induction fuel with
  | zero =>
    refine ⟨?_, ?_, ?_⟩
    · intro v cs rest _ hf _
      exact absurd hf (by have := fuelNeed_pos v; omega)
    · intro xs cs rest _ hf _
      exact absurd hf (by have := seqFuel_pos xs; omega)
    · intro fs cs rest _ hf _
      exact absurd hf (by have := fieldsFuel_pos fs; omega)
  | succ f ih =>
    obtain ⟨ihV, ihI, ihF⟩ := ih
    refine ⟨?_, ?_, ?_⟩
    · intro v cs rest hcs hf hrest
      cases v with
      | none =>
        simp only [jsonChars, Option.some.injEq] at hcs
        rw [← hcs]
        exact parseJVal_null_step f rest
      | bool b =>
        cases b with
        | false =>
          simp only [jsonChars, Option.some.injEq] at hcs
          rw [← hcs]
          exact parseJVal_false_step f rest
        | true =>
          simp only [jsonChars, Option.some.injEq] at hcs
          rw [← hcs]
          exact parseJVal_true_step f rest
      | int n =>
        simp only [jsonChars, Option.some.injEq] at hcs
        rw [← hcs]
        obtain ⟨c0, cs0, hic, hcd⟩ := intChars_head n
        rw [hic, List.cons_append, parseJVal_at_num f c0 _ hcd,
          ← List.cons_append, ← hic]
        exact parseJNum_intChars n rest hrest
      | float m k =>
        simp only [jsonChars, Option.some.injEq] at hcs
        rw [← hcs]
        obtain ⟨c0, cs0, hic, hcd⟩ := floatChars_head m k
        rw [hic, List.cons_append, parseJVal_at_num f c0 _ hcd,
          ← List.cons_append, ← hic]
        exact parseJNum_floatChars m k rest hrest
      | str s =>
        obtain ⟨sd⟩ := s
        simp only [jsonChars, Option.some.injEq] at hcs
        rw [← hcs]
        have hsh : ('"' :: escapeChars (String.mk sd).data ++ ['"']) ++ rest =
            '"' :: (escapeChars sd ++ '"' :: rest) := by simp
        rw [hsh, parseJVal_str_step, parseJStr_escape]
      | timestamp s => simp [jsonChars] at hcs
      | list xs =>
        cases xs with
        | nil =>
          simp only [jsonChars, Option.some.injEq] at hcs
          rw [← hcs]
          exact parseJVal_emptyList_step f rest
        | cons x t =>
          simp only [jsonChars] at hcs
          cases hx : jsonChars x with
          | none => rw [hx] at hcs; simp at hcs
          | some cx =>
            cases ht : jsonSeqChars t with
            | none => rw [hx, ht] at hcs; simp at hcs
            | some ct =>
              rw [hx, ht] at hcs
              simp only [Option.some.injEq] at hcs
              rw [← hcs]
              have hfx : fuelNeed x ≤ f := by
                have h1 := seqFuel_pos t
                simp only [fuelNeed, seqFuel] at hf
                omega
              have hft : seqFuel t ≤ f := by
                have h1 := fuelNeed_pos x
                simp only [fuelNeed, seqFuel] at hf
                omega
              obtain ⟨c0, cx', hcx0, hne1, hne2⟩ := jsonChars_head x cx hx
              have hsh : ('[' :: cx ++ ct ++ [']']) ++ rest =
                  '[' :: (cx ++ (ct ++ ']' :: rest)) := by simp
              rw [hsh, parseJVal_list_step]
              rw [if_neg (by rw [hcx0]; simp [hne1])]
              simp only [ihV x cx (ct ++ ']' :: rest) hx hfx (JDelim_seq t ct rest ht),
                ihI t ct rest ht hft hrest]
      | dict fs =>
        cases fs with
        | nil =>
          simp only [jsonChars, Option.some.injEq] at hcs
          rw [← hcs]
          exact rfl
        | cons e t =>
          obtain ⟨k, v⟩ := e
          obtain ⟨kd⟩ := k
          simp only [jsonChars] at hcs
          cases hx : jsonChars v with
          | none => rw [hx] at hcs; simp at hcs
          | some cv =>
            cases ht : jsonFieldsChars t with
            | none => rw [hx, ht] at hcs; simp at hcs
            | some ct =>
              rw [hx, ht] at hcs
              simp only [Option.some.injEq] at hcs
              rw [← hcs]
              have hfx : fuelNeed v ≤ f := by
                have h1 := fieldsFuel_pos t
                simp only [fuelNeed, fieldsFuel] at hf
                omega
              have hft : fieldsFuel t ≤ f := by
                have h1 := fuelNeed_pos v
                simp only [fuelNeed, fieldsFuel] at hf
                omega
              have hsh : ('\x7b' :: jsonKey (String.mk kd) ++ cv ++ ct ++ ['\x7d']) ++ rest =
                  '\x7b' :: '"' :: (escapeChars kd ++ '"' ::
                    (':' :: ' ' :: (cv ++ (ct ++ '\x7d' :: rest)))) := by
                simp [jsonKey]
              rw [hsh, parseJVal_dict_step]
              rw [if_neg (by simp)]
              rw [if_pos (by simp)]
              simp only [List.tail_cons]
              rw [parseJStr_escape]
              simp only [List.take_succ_cons, List.take_zero, List.drop_succ_cons,
                List.drop_zero, if_pos rfl]
              simp only [ihV v cv (ct ++ '\x7d' :: rest) hx hfx
                (JDelim_fields t ct rest ht),
                ihF t ct rest ht hft hrest]
              exact if_pos trivial
    · intro xs cs rest hcs hf hrest
      cases xs with
      | nil =>
        simp only [jsonSeqChars, Option.some.injEq] at hcs
        rw [← hcs, List.nil_append]
        exact parseJItems_nil_step f rest
      | cons x t =>
        simp only [jsonSeqChars] at hcs
        cases hx : jsonChars x with
        | none => rw [hx] at hcs; simp at hcs
        | some cx =>
          cases ht : jsonSeqChars t with
          | none => rw [hx, ht] at hcs; simp at hcs
          | some ct =>
            rw [hx, ht] at hcs
            simp only [Option.some.injEq] at hcs
            rw [← hcs]
            have hfx : fuelNeed x ≤ f := by
              have h1 := seqFuel_pos t
              simp only [seqFuel] at hf
              omega
            have hft : seqFuel t ≤ f := by
              have h1 := fuelNeed_pos x
              simp only [seqFuel] at hf
              omega
            have hsh : ((',' :: ' ' :: cx ++ ct) ++ ']' :: rest) =
                ',' :: ' ' :: (cx ++ (ct ++ ']' :: rest)) := by simp
            rw [hsh, parseJItems_cons_step]
            simp only [ihV x cx (ct ++ ']' :: rest) hx hfx (JDelim_seq t ct rest ht),
              ihI t ct rest ht hft hrest]
    · intro fs cs rest hcs hf hrest
      cases fs with
      | nil =>
        simp only [jsonFieldsChars, Option.some.injEq] at hcs
        rw [← hcs, List.nil_append]
        exact parseJFields_nil_step f rest
      | cons e t =>
        obtain ⟨k, v⟩ := e
        obtain ⟨kd⟩ := k
        simp only [jsonFieldsChars] at hcs
        cases hx : jsonChars v with
        | none => rw [hx] at hcs; simp at hcs
        | some cv =>
          cases ht : jsonFieldsChars t with
          | none => rw [hx, ht] at hcs; simp at hcs
          | some ct =>
            rw [hx, ht] at hcs
            simp only [Option.some.injEq] at hcs
            rw [← hcs]
            have hfx : fuelNeed v ≤ f := by
              have h1 := fieldsFuel_pos t
              simp only [fieldsFuel] at hf
              omega
            have hft : fieldsFuel t ≤ f := by
              have h1 := fuelNeed_pos v
              simp only [fieldsFuel] at hf
              omega
            have hsh : ((',' :: ' ' :: jsonKey (String.mk kd) ++ cv ++ ct) ++ '\x7d' :: rest) =
                ',' :: ' ' :: '"' :: (escapeChars kd ++ '"' ::
                  (':' :: ' ' :: (cv ++ (ct ++ '\x7d' :: rest)))) := by
              simp [jsonKey]
            rw [hsh, parseJFields_cons_step, parseJStr_escape]
            simp only [List.take_succ_cons, List.take_zero, List.drop_succ_cons,
              List.drop_zero, if_pos rfl]
            simp only [ihV v cv (ct ++ '\x7d' :: rest) hx hfx
              (JDelim_fields t ct rest ht),
              ihF t ct rest ht hft hrest]
            exact if_pos trivial

theorem seqFuel_le_aux (t : List PyVal)
    (hP : ∀ x ∈ t, ∀ cs, jsonChars x = some cs → fuelNeed x ≤ cs.length + 1) :
    ∀ cs, jsonSeqChars t = some cs → seqFuel t ≤ cs.length + 1 := by
  induction t with
  | nil =>
    intro cs h
    simp only [jsonSeqChars, Option.some.injEq] at h
    rw [← h]
    simp [seqFuel]
  | cons x t ih =>
    intro cs h
    simp only [jsonSeqChars] at h
    cases hx : jsonChars x with
    | none => rw [hx] at h; simp at h
    | some cx =>
      cases ht : jsonSeqChars t with
      | none => rw [hx, ht] at h; simp at h
      | some ct =>
        rw [hx, ht] at h
        simp only [Option.some.injEq] at h
        rw [← h]
        have h1 := hP x (by simp) cx hx
        have h2 := ih (fun y hy => hP y (by simp [hy])) ct ht
        simp only [seqFuel, List.length_cons, List.length_append]
        omega

theorem fieldsFuel_le_aux (t : List (String × PyVal))
    (hP : ∀ e ∈ t, ∀ cs, jsonChars e.2 = some cs → fuelNeed e.2 ≤ cs.length + 1) :
    ∀ cs, jsonFieldsChars t = some cs → fieldsFuel t ≤ cs.length + 1 := by
  induction t with
  | nil =>
    intro cs h
    simp only [jsonFieldsChars, Option.some.injEq] at h
    rw [← h]
    simp [fieldsFuel]
  | cons e t ih =>
    obtain ⟨k, v⟩ := e
    intro cs h
    simp only [jsonFieldsChars] at h
    cases hx : jsonChars v with
    | none => rw [hx] at h; simp at h
    | some cv =>
      cases ht : jsonFieldsChars t with
      | none => rw [hx, ht] at h; simp at h
      | some ct =>
        rw [hx, ht] at h
        simp only [Option.some.injEq] at h
        rw [← h]
        have h1 : fuelNeed v ≤ cv.length + 1 := hP (k, v) (by simp) cv hx
        have h2 := ih (fun y hy => hP y (by simp [hy])) ct ht
        simp only [fieldsFuel, List.length_cons, List.length_append]
        omega

theorem fuelNeed_le_length (v : PyVal) :
    ∀ cs, jsonChars v = some cs → fuelNeed v ≤ cs.length + 1 := by
  induction v using PyVal.inductOn with
  | h1 => intro cs h; simp [fuelNeed]
  | h2 b => intro cs h; simp [fuelNeed]
  | h3 n => intro cs h; simp [fuelNeed]
  | h4 m k => intro cs h; simp [fuelNeed]
  | h5 s => intro cs h; simp [fuelNeed]
  | h6 s => intro cs h; simp [jsonChars] at h
  | h7 xs hm =>
    intro cs h
    cases xs with
    | nil =>
      simp only [jsonChars, Option.some.injEq] at h
      rw [← h]
      simp [fuelNeed, seqFuel]
    | cons x t =>
      simp only [jsonChars] at h
      cases hx : jsonChars x with
      | none => rw [hx] at h; simp at h
      | some cx =>
        cases ht : jsonSeqChars t with
        | none => rw [hx, ht] at h; simp at h
        | some ct =>
          rw [hx, ht] at h
          simp only [Option.some.injEq] at h
          rw [← h]
          have h1 := hm x (by simp) cx hx
          have h2 := seqFuel_le_aux t (fun y hy => hm y (by simp [hy])) ct ht
          simp only [fuelNeed, seqFuel, List.length_cons, List.length_append]
          omega
  | h8 fs hm =>
    intro cs h
    cases fs with
    | nil =>
      simp only [jsonChars, Option.some.injEq] at h
      rw [← h]
      simp [fuelNeed, fieldsFuel]
    | cons e t =>
      obtain ⟨k, v⟩ := e
      simp only [jsonChars] at h
      cases hx : jsonChars v with
      | none => rw [hx] at h; simp at h
      | some cv =>
        cases ht : jsonFieldsChars t with
        | none => rw [hx, ht] at h; simp at h
        | some ct =>
          rw [hx, ht] at h
          simp only [Option.some.injEq] at h
          rw [← h]
          have h1 : fuelNeed v ≤ cv.length + 1 := hm (k, v) (by simp) cv hx
          have h2 := fieldsFuel_le_aux t (fun y hy => hm y (by simp [hy])) ct ht
          simp only [fuelNeed, fieldsFuel, List.length_cons, List.length_append,
            jsonKey]
          omega

/-- The JSON round trip: `json.loads` recovers every value that
`json.dumps` serialises. -/
theorem jsonLoads_jsonDumps (v : PyVal) (s : String)
    (h : jsonDumps v = some s) : jsonLoads s = some v := by
  rw [jsonDumps] at h
  cases hc : jsonChars v with
  | none => rw [hc] at h; simp at h
  | some cs =>
    rw [hc] at h
    simp only [Option.map_some', Option.some.injEq] at h
    have hdata : s.data = cs := by rw [← h]; rfl
    have hlen : s.length = cs.length := by
      rw [← h]
      rfl
    have hfuel : fuelNeed v ≤ cs.length + 1 := fuelNeed_le_length v cs hc
    have hmain := (parse_jsonChars (s.length + 1)).1 v cs []
      hc (by omega) (Or.inl rfl)
    rw [List.append_nil] at hmain
    rw [jsonLoads, hdata, hmain]

/-! ## Lemmas: `_clean_metadata` -/

namespace EmbeddingManager

theorem exceptBind_ok {α β : Type} (a : α) (f : α → Except PyErr β) :
    (Except.ok a >>= f) = f a := rfl

theorem exceptBind_err {α β : Type} (e : PyErr) (f : α → Except PyErr β) :
    ((Except.error e : Except PyErr α) >>= f) = Except.error e := rfl

theorem exceptMap_ok {α β : Type} (g : α → β) (a : α) :
    (g <$> (Except.ok a : Except PyErr α)) = Except.ok (g a) := rfl

theorem exceptMap_err {α β : Type} (g : α → β) (e : PyErr) :
    (g <$> (Except.error e : Except PyErr α)) = Except.error e := rfl

theorem exceptPure {α : Type} (a : α) :
    (pure a : Except PyErr α) = Except.ok a := rfl

theorem cleanMetadata_cons (k : String) (v : PyVal)
    (rest : List (String × PyVal)) (out : List (String × PyVal)) :
    cleanMetadata ((k, v) :: rest) = .ok out ↔
      ∃ ho tl, cleanEntry k v = .ok ho ∧ cleanMetadata rest = .ok tl ∧
        out = ho.toList ++ tl := by
  constructor
  · intro h
    cases hce : cleanEntry k v with
    | error e =>
      rw [cleanMetadata, hce] at h
      simp only [exceptBind_err] at h
      simp at h
    | ok ho =>
      cases hcm : cleanMetadata rest with
      | error e =>
        rw [cleanMetadata, hce, hcm] at h
        simp only [exceptBind_ok, exceptBind_err, exceptMap_err] at h
        simp at h
      | ok tl =>
        rw [cleanMetadata, hce, hcm] at h
        simp only [exceptBind_ok, exceptBind_err, exceptMap_ok, exceptPure,
          Except.ok.injEq] at h
        exact ⟨ho, tl, rfl, rfl, h.symm⟩
  · rintro ⟨ho, tl, hce, hcm, rfl⟩
    rw [cleanMetadata, hce, hcm]
    rfl

theorem cleanEntry_ok_shape (k : String) (v : PyVal) (k' : String) (w : PyVal)
    (h : cleanEntry k v = .ok (some (k', w))) :
    k' = k ∧ isStoreScalar w = true := by
  cases v with
  | dict fs =>
    rw [cleanEntry] at h
    cases hd : jsonDumps (.dict fs) with
    | none => rw [hd] at h; simp at h
    | some s =>
      rw [hd] at h
      simp only [Except.ok.injEq, Option.some.injEq, Prod.mk.injEq] at h
      exact ⟨h.1.symm, by rw [← h.2]; rfl⟩
  | none => simp [cleanEntry] at h
  | list xs =>
    simp only [cleanEntry, Except.ok.injEq, Option.some.injEq, Prod.mk.injEq] at h
    exact ⟨h.1.symm, by rw [← h.2]; rfl⟩
  | str s =>
    simp only [cleanEntry, Except.ok.injEq, Option.some.injEq, Prod.mk.injEq] at h
    exact ⟨h.1.symm, by rw [← h.2]; rfl⟩
  | int n =>
    simp only [cleanEntry, Except.ok.injEq, Option.some.injEq, Prod.mk.injEq] at h
    exact ⟨h.1.symm, by rw [← h.2]; rfl⟩
  | float m j =>
    simp only [cleanEntry, Except.ok.injEq, Option.some.injEq, Prod.mk.injEq] at h
    exact ⟨h.1.symm, by rw [← h.2]; rfl⟩
  | bool b =>
    simp only [cleanEntry, Except.ok.injEq, Option.some.injEq, Prod.mk.injEq] at h
    exact ⟨h.1.symm, by rw [← h.2]; rfl⟩
  | timestamp s =>
    simp only [cleanEntry, Except.ok.injEq, Option.some.injEq, Prod.mk.injEq] at h
    exact ⟨h.1.symm, by rw [← h.2]; rfl⟩

theorem cm_scalar_out (md out : List (String × PyVal))
    (h : cleanMetadata md = .ok out) :
    ∀ kv ∈ out, isStoreScalar kv.2 = true := by
  induction md generalizing out with
  | nil =>
    simp only [cleanMetadata, Except.ok.injEq] at h
    rw [← h]
    intro kv hkv
    simp at hkv
  | cons e rest ih =>
    obtain ⟨k, v⟩ := e
    obtain ⟨ho, tl, hce, hcm, rfl⟩ := (cleanMetadata_cons k v rest out).mp h
    intro kv hkv
    rcases List.mem_append.mp hkv with hkv | hkv
    · cases ho with
      | none => simp at hkv
      | some p =>
        obtain ⟨k', w⟩ := p
        simp only [Option.toList_some, List.mem_singleton] at hkv
        rw [hkv]
        exact (cleanEntry_ok_shape k v k' w hce).2
    · exact ih tl hcm kv hkv

theorem cm_list_mem (md out : List (String × PyVal))
    (h : cleanMetadata md = .ok out) :
    ∀ k xs, (k, PyVal.list xs) ∈ md →
      (k, PyVal.str (String.intercalate ", " (xs.map pyStr))) ∈ out := by
  induction md generalizing out with
  | nil => intro k xs hk; simp at hk
  | cons e rest ih =>
    obtain ⟨k0, v0⟩ := e
    obtain ⟨ho, tl, hce, hcm, rfl⟩ := (cleanMetadata_cons k0 v0 rest out).mp h
    intro k xs hk
    rcases List.mem_cons.mp hk with hk | hk
    · obtain ⟨rfl, rfl⟩ : k0 = k ∧ v0 = PyVal.list xs := by
        have h1 := congrArg Prod.fst hk.symm
        have h2 := congrArg Prod.snd hk.symm
        exact ⟨h1, h2⟩
      simp only [cleanEntry, Except.ok.injEq] at hce
      rw [← hce]
      simp
    · exact List.mem_append_right _ (ih tl hcm k xs hk)

theorem cm_dict_mem (md out : List (String × PyVal))
    (h : cleanMetadata md = .ok out) :
    ∀ k fs, (k, PyVal.dict fs) ∈ md →
      ∃ s, jsonDumps (PyVal.dict fs) = some s ∧ (k, PyVal.str s) ∈ out := by
  induction md generalizing out with
  | nil => intro k fs hk; simp at hk
  | cons e rest ih =>
    obtain ⟨k0, v0⟩ := e
    obtain ⟨ho, tl, hce, hcm, rfl⟩ := (cleanMetadata_cons k0 v0 rest out).mp h
    intro k fs hk
    rcases List.mem_cons.mp hk with hk | hk
    · obtain ⟨rfl, rfl⟩ : k0 = k ∧ v0 = PyVal.dict fs := by
        have h1 := congrArg Prod.fst hk.symm
        have h2 := congrArg Prod.snd hk.symm
        exact ⟨h1, h2⟩
      rw [cleanEntry] at hce
      cases hd : jsonDumps (.dict fs) with
      | none => rw [hd] at hce; simp at hce
      | some s =>
        rw [hd] at hce
        simp only [Except.ok.injEq] at hce
        refine ⟨s, rfl, ?_⟩
        rw [← hce]
        simp
    · obtain ⟨s, hs, hmem⟩ := ih tl hcm k fs hk
      exact ⟨s, hs, List.mem_append_right _ hmem⟩

theorem cm_keys_sub (md out : List (String × PyVal))
    (h : cleanMetadata md = .ok out) :
    ∀ k ∈ out.map Prod.fst, k ∈ md.map Prod.fst := by
  induction md generalizing out with
  | nil =>
    simp only [cleanMetadata, Except.ok.injEq] at h
    rw [← h]
    intro k hk
    simp at hk
  | cons e rest ih =>
    obtain ⟨k0, v0⟩ := e
    obtain ⟨ho, tl, hce, hcm, rfl⟩ := (cleanMetadata_cons k0 v0 rest out).mp h
    intro k hk
    simp only [List.map_append, List.mem_append] at hk
    rcases hk with hk | hk
    · cases ho with
      | none => simp at hk
      | some p =>
        obtain ⟨k', w⟩ := p
        simp only [Option.toList_some, List.map_cons, List.map_nil,
          List.mem_singleton] at hk
        rw [hk, (cleanEntry_ok_shape k0 v0 k' w hce).1]
        simp
    · simp only [List.map_cons, List.mem_cons]
      exact Or.inr (ih tl hcm k hk)

theorem cm_none_dropped (md out : List (String × PyVal))
    (h : cleanMetadata md = .ok out) (hnd : (md.map Prod.fst).Nodup) :
    ∀ k, (k, PyVal.none) ∈ md → k ∉ out.map Prod.fst := by
  induction md generalizing out with
  | nil => intro k hk; simp at hk
  | cons e rest ih =>
    obtain ⟨k0, v0⟩ := e
    obtain ⟨ho, tl, hce, hcm, rfl⟩ := (cleanMetadata_cons k0 v0 rest out).mp h
    simp only [List.map_cons, List.nodup_cons] at hnd
    intro k hk
    rcases List.mem_cons.mp hk with hk | hk
    · obtain ⟨rfl, rfl⟩ : k0 = k ∧ v0 = PyVal.none := by
        have h1 := congrArg Prod.fst hk.symm
        have h2 := congrArg Prod.snd hk.symm
        exact ⟨h1, h2⟩
      simp only [cleanEntry, Except.ok.injEq] at hce
      rw [← hce]
      simp only [Option.toList_none, List.nil_append]
      intro hmem
      exact hnd.1 (cm_keys_sub rest tl hcm _ hmem)
    · have hkne : k ≠ k0 := by
        intro hkk
        rw [hkk] at hk
        exact hnd.1 (List.mem_map.mpr ⟨(k0, PyVal.none), hk, rfl⟩)
      intro hmem
      simp only [List.map_append, List.mem_append] at hmem
      rcases hmem with hmem | hmem
      · cases ho with
        | none => simp at hmem
        | some p =>
          obtain ⟨k', w⟩ := p
          simp only [Option.toList_some, List.map_cons, List.map_nil,
            List.mem_singleton] at hmem
          rw [(cleanEntry_ok_shape k0 v0 k' w hce).1] at hmem
          exact hkne hmem
      · exact ih tl hcm hnd.2 k hk hmem

theorem cm_scalar_kept (md out : List (String × PyVal))
    (h : cleanMetadata md = .ok out) :
    ∀ kv ∈ md, isStoreScalar kv.2 = true → kv ∈ out := by
  induction md generalizing out with
  | nil => intro kv hkv; simp at hkv
  | cons e rest ih =>
    obtain ⟨k0, v0⟩ := e
    obtain ⟨ho, tl, hce, hcm, rfl⟩ := (cleanMetadata_cons k0 v0 rest out).mp h
    intro kv hkv hsc
    rcases List.mem_cons.mp hkv with hkv | hkv
    · rw [hkv]
      rw [hkv] at hsc
      cases v0 with
      | str s =>
        simp only [cleanEntry, Except.ok.injEq] at hce
        rw [← hce]; simp
      | int n =>
        simp only [cleanEntry, Except.ok.injEq] at hce
        rw [← hce]; simp
      | float m j =>
        simp only [cleanEntry, Except.ok.injEq] at hce
        rw [← hce]; simp
      | bool b =>
        simp only [cleanEntry, Except.ok.injEq] at hce
        rw [← hce]; simp
      | none => simp [isStoreScalar] at hsc
      | timestamp s => simp [isStoreScalar] at hsc
      | list xs => simp [isStoreScalar] at hsc
      | dict fs => simp [isStoreScalar] at hsc
    · exact List.mem_append_right _ (ih tl hcm kv hkv hsc)

end EmbeddingManager

/-! ## Claim theorems -/

/-- C5: For every input mapping (with the distinct keys of a Python dict)
that sanitises successfully, the sanitized metadata contains no null and no
list- or dict-typed values — only store-safe scalars; every list entry is
replaced by the comma-join of the `str` of its elements; every dict entry
by its JSON string, losslessly recoverable by a JSON round-trip; every
key with a null value is omitted entirely; and string/number/boolean
values are kept unchanged. -/
theorem C5_clean_metadata_sanitizes (md out : List (String × PyVal))
    (h : EmbeddingManager.cleanMetadata md = .ok out)
    (hnd : (md.map Prod.fst).Nodup) :
    (∀ kv ∈ out, isStoreScalar kv.2 = true)
    ∧ (∀ k xs, (k, PyVal.list xs) ∈ md →
        (k, PyVal.str (String.intercalate ", " (xs.map pyStr))) ∈ out)
    ∧ (∀ k fs, (k, PyVal.dict fs) ∈ md →
        ∃ s, jsonDumps (PyVal.dict fs) = some s ∧ (k, PyVal.str s) ∈ out ∧
          jsonLoads s = some (PyVal.dict fs))
    ∧ (∀ k, (k, PyVal.none) ∈ md → k ∉ out.map Prod.fst)
    ∧ (∀ kv ∈ md, isStoreScalar kv.2 = true → kv ∈ out) := by
  refine ⟨EmbeddingManager.cm_scalar_out md out h,
    EmbeddingManager.cm_list_mem md out h, ?_,
    EmbeddingManager.cm_none_dropped md out h hnd,
    EmbeddingManager.cm_scalar_kept md out h⟩
  intro k fs hk
  obtain ⟨s, hs, hmem⟩ := EmbeddingManager.cm_dict_mem md out h k fs hk
  exact ⟨s, hs, hmem, jsonLoads_jsonDumps _ s hs⟩

/-- Witness for C5 at a concrete mapping holding a list, a dict, a null, a
string, an int and a bool entry. -/
theorem C5_clean_metadata_sanitizes_witness :
    EmbeddingManager.cleanMetadata
        [("tags", PyVal.list [PyVal.str "a", PyVal.str "b"]),
         ("info", PyVal.dict [("x", PyVal.str "y")]),
         ("gone", PyVal.none),
         ("name", PyVal.str "v"),
         ("flag", PyVal.bool true)] =
      .ok [("tags", PyVal.str "a, b"),
           ("info", PyVal.str "\x7b\"x\": \"y\"\x7d"),
           ("name", PyVal.str "v"),
           ("flag", PyVal.bool true)] ∧
    ((([("tags", PyVal.list [PyVal.str "a", PyVal.str "b"]),
        ("info", PyVal.dict [("x", PyVal.str "y")]),
        ("gone", PyVal.none),
        ("name", PyVal.str "v"),
        ("flag", PyVal.bool true)] : List (String × PyVal)).map Prod.fst).Nodup) ∧
    (∀ kv ∈ [("tags", PyVal.str "a, b"),
             ("info", PyVal.str "\x7b\"x\": \"y\"\x7d"),
             ("name", PyVal.str "v"),
             ("flag", PyVal.bool true)], isStoreScalar kv.2 = true) :=
  ⟨rfl, by simp,
    (C5_clean_metadata_sanitizes
      [("tags", PyVal.list [PyVal.str "a", PyVal.str "b"]),
       ("info", PyVal.dict [("x", PyVal.str "y")]),
       ("gone", PyVal.none),
       ("name", PyVal.str "v"),
       ("flag", PyVal.bool true)]
      [("tags", PyVal.str "a, b"),
       ("info", PyVal.str "\x7b\"x\": \"y\"\x7d"),
       ("name", PyVal.str "v"),
       ("flag", PyVal.bool true)]
      rfl (by simp)).1⟩

/-- C10: After every call to `ChatHistoryManager.add_message`, the call
reports success even when saving fails (the exception is swallowed); when
the save succeeds the persisted history for that user is the
most-recent-messages suffix of the old history plus the new message,
truncated to at most 100 entries; older messages are discarded. -/
theorem C10_add_message_truncates
    (store : List (String × List ChatHistoryManager.Message))
    (saveFails : Bool) (user role content now : String)
    (md : Option (List (String × PyVal))) :
    ChatHistoryManager.addMessage store saveFails user role content md now =
      .ok (if saveFails then store
        else
          ChatHistoryManager.setStore store (ChatHistoryManager.sanitizeName user)
            (ChatHistoryManager.truncate100
              (ChatHistoryManager.loadFor store (ChatHistoryManager.sanitizeName user)
                ++ [⟨role, content, now, md.getD []⟩])))
    ∧ (ChatHistoryManager.truncate100
        (ChatHistoryManager.loadFor store (ChatHistoryManager.sanitizeName user)
          ++ [⟨role, content, now, md.getD []⟩])).length ≤ 100
    ∧ ChatHistoryManager.truncate100
        (ChatHistoryManager.loadFor store (ChatHistoryManager.sanitizeName user)
          ++ [⟨role, content, now, md.getD []⟩]) <:+
        (ChatHistoryManager.loadFor store (ChatHistoryManager.sanitizeName user)
          ++ [⟨role, content, now, md.getD []⟩]) := by
  refine ⟨?_, ?_, ?_⟩
  · cases saveFails with
    | true => rfl
    | false => rfl
  · rw [ChatHistoryManager.truncate100]
    split
    · next hlen =>
      rw [List.length_drop]
      omega
    · next hlen =>
      omega
  · rw [ChatHistoryManager.truncate100]
    split
    · exact List.drop_suffix _ _
    · exact List.suffix_refl _

/-- C9: For a field declared `integer` or `float`, normalization is the
total per-cell map below (hence deterministic and never raising), and any
cell that is missing or whose text `pd.to_numeric` cannot parse becomes
`0` (respectively `0.0`). -/
theorem C9_numeric_unparsable_coerces_to_zero
    (cfg : CSVConnector.ColumnConfig) (cells : List (Option String)) :
    (cfg.type = .integer →
      CSVConnector.processColumn cfg cells =
        cells.map (fun c => PyVal.int (CSVConnector.intCell c)) ∧
      ∀ c ∈ cells,
        (∀ s, c = some s → CSVConnector.toNumericVal (pyStrip s).data = Option.none) →
        PyVal.int (CSVConnector.intCell c) = PyVal.int 0)
    ∧ (cfg.type = .float →
      CSVConnector.processColumn cfg cells =
        cells.map CSVConnector.floatCell ∧
      ∀ c ∈ cells,
        (∀ s, c = some s → CSVConnector.toNumericVal (pyStrip s).data = Option.none) →
        CSVConnector.floatCell c = PyVal.float 0 0) := by
  constructor
  · intro ht
    refine ⟨by rw [CSVConnector.processColumn, ht], ?_⟩
    intro c hc hun
    cases c with
    | none => rfl
    | some s =>
      rw [CSVConnector.intCell, hun s rfl]
  · intro ht
    refine ⟨by rw [CSVConnector.processColumn, ht], ?_⟩
    intro c hc hun
    cases c with
    | none => rfl
    | some s =>
      rw [CSVConnector.floatCell, hun s rfl]

/-- Witness for C9: an `integer` column with the unparsable cell `"abc"`
and a missing cell both coerce to `0`; a `float` column on the same cells
coerces to `0.0`. -/
theorem C9_numeric_unparsable_witness :
    CSVConnector.processColumn ⟨"score", .integer, false, Option.none⟩
        [some "abc", Option.none] = [PyVal.int 0, PyVal.int 0] ∧
    CSVConnector.processColumn ⟨"score", .float, false, Option.none⟩
        [some "abc", Option.none] = [PyVal.float 0 0, PyVal.float 0 0] := by
  constructor
  · have h := (C9_numeric_unparsable_coerces_to_zero
      ⟨"score", .integer, false, Option.none⟩ [some "abc", Option.none]).1 rfl
    rw [h.1]
    have h1 := h.2 (some "abc") (by simp)
      (fun s hs => by cases hs; rfl)
    have h2 := h.2 Option.none (by simp) (fun s hs => by cases hs)
    rw [List.map_cons, List.map_cons, List.map_nil, h1, h2]
  · have h := (C9_numeric_unparsable_coerces_to_zero
      ⟨"score", .float, false, Option.none⟩ [some "abc", Option.none]).2 rfl
    rw [h.1]
    have h1 := h.2 (some "abc") (by simp)
      (fun s hs => by cases hs; rfl)
    have h2 := h.2 Option.none (by simp) (fun s hs => by cases hs)
    rw [List.map_cons, List.map_cons, List.map_nil, h1, h2]

/-- C8: `get_text_content` assembles the embeddable text by iterating the
configured text columns in declared order, keeping the stripped `str` of
each present non-null value when non-empty, and joining the pieces with a
single space — the plain space-join, not the labelled pipe-join of
`_combine_text_fields`. -/
theorem C8_text_assembly_space_join (cfg : CSVConnector.Config)
    (record : List (String × PyVal)) :
    CSVConnector.getTextContent cfg record =
      String.intercalate " "
        (cfg.text_columns.filterMap fun col =>
          match record.find? (fun kv => kv.1 == col) with
          | some (_, PyVal.none) => Option.none
          | Option.none => Option.none
          | some (_, v) =>
            if pyStrip (pyStr v) = "" then Option.none
            else some (pyStrip (pyStr v))) := by
  rw [CSVConnector.getTextContent]
  congr 1
  induction cfg.text_columns with
  | nil => rfl
  | cons col rest ih =>
    rw [CSVConnector.textPieces, List.filterMap_cons]
    cases hf : record.find? (fun kv => kv.1 == col) with
    | none =>
      dsimp only
      exact ih
    | some kv =>
      obtain ⟨k0, v0⟩ := kv
      cases v0 <;> dsimp only <;>
        first
          | exact ih
          | (split_ifs with he <;> dsimp only <;> rw [ih])

/-- The keys of the configured-columns block of `get_metadata`. -/
theorem mapfst_meta_cols (record : List (String × PyVal)) (cols : List String) :
    ((cols.filterMap fun col =>
        (record.find? (fun kv => kv.1 == col)).map fun kv => (col, kv.2)).map
      Prod.fst) =
      cols.filter fun col => (record.find? (fun kv => kv.1 == col)).isSome := by
  induction cols with
  | nil => rfl
  | cons col rest ih =>
    rw [List.filterMap_cons, List.filter_cons]
    cases hf : record.find? (fun kv => kv.1 == col) with
    | none => simpa using ih
    | some kv => simpa using ih

/-- C6 counterexample: with `metadata_columns=["category"]` configured and a
record holding only `category`, the produced metadata's keys are
`["source", "file_path", "category"]` — not exactly the configured
`["category"]`, refuting the claim that the metadata contains exactly the
configured fields and no others. -/
theorem C6_counterexample :
    (CSVConnector.getMetadata
        { file_path := "/data.csv",
          columns := [⟨"category", .text, false, Option.none⟩],
          text_columns := [],
          metadata_columns := some ["category"] }
        [("category", PyVal.str "x")]).map Prod.fst ≠ ["category"] := by
  decide

/-- C6 amended: with configured metadata columns, `get_metadata` produces
the `source` and `file_path` tags, then exactly the configured columns
that are present in the record (in configured order), then `row_index`
when the record has an `index` key — and nothing else. -/
theorem C6_amended_metadata_keys (cfg : CSVConnector.Config)
    (record : List (String × PyVal)) (cols : List String)
    (h : cfg.metadata_columns = some cols) :
    (CSVConnector.getMetadata cfg record).map Prod.fst =
      "source" :: "file_path" ::
        ((cols.filter fun col => (record.find? (fun kv => kv.1 == col)).isSome)
          ++ (if (record.find? (fun kv => kv.1 == "index")).isSome
              then ["row_index"] else [])) := by
  rw [CSVConnector.getMetadata, h]
  rw [List.map_append, List.map_append, mapfst_meta_cols]
  cases hf : record.find? (fun kv => kv.1 == "index") with
  | none => simp
  | some kv => simp

/-- Witness for the amended C6 at a concrete configuration and record. -/
theorem C6_amended_metadata_keys_witness :
    (CSVConnector.getMetadata
        { file_path := "/data.csv",
          columns := [⟨"category", .text, false, Option.none⟩,
                      ⟨"missing", .text, false, Option.none⟩],
          text_columns := [],
          metadata_columns := some ["category", "missing"] }
        [("category", PyVal.str "x")]).map Prod.fst =
      "source" :: "file_path" ::
        ((["category", "missing"].filter fun col =>
            ([("category", PyVal.str "x")].find? (fun kv => kv.1 == col)).isSome)
          ++ (if (([("category", PyVal.str "x")].find?
                (fun kv => kv.1 == "index")).isSome)
              then ["row_index"] else [])) :=
  C6_amended_metadata_keys _ [("category", PyVal.str "x")]
    ["category", "missing"] rfl

/-- C4: on an initialized sink, `search_similar(q, k)` succeeds and returns
exactly `min k (collection size)` results, ordered by non-decreasing
distance (closest first). -/
theorem C4_search_clamped_and_sorted (m : EmbeddingManager.Manager)
    (entries : List EmbeddingManager.ChromaEntry) (f : String → List Int)
    (q : String) (k : Nat)
    (hc : m.collection = some entries) (hm : m.embeddingModel = some f) :
    ∃ rs, EmbeddingManager.searchSimilar m q k = .ok rs ∧
      rs.length = min k entries.length ∧
      rs.Pairwise (fun a b : EmbeddingManager.SimilarDoc =>
        a.distance ≤ b.distance) := by
  rw [EmbeddingManager.searchSimilar, hc, hm]
  refine ⟨_, rfl, ?_, ?_⟩
  · rw [EmbeddingManager.chromaQuery]
    rw [List.length_map, List.length_take, List.length_insertionSort]
    omega
  · rw [EmbeddingManager.chromaQuery]
    rw [List.pairwise_map]
    haveI : IsTotal EmbeddingManager.ChromaEntry
        (fun e1 e2 => EmbeddingManager.sqDist (f q) e1.embedding ≤
          EmbeddingManager.sqDist (f q) e2.embedding) :=
      ⟨fun a b => le_total _ _⟩
    haveI : IsTrans EmbeddingManager.ChromaEntry
        (fun e1 e2 => EmbeddingManager.sqDist (f q) e1.embedding ≤
          EmbeddingManager.sqDist (f q) e2.embedding) :=
      ⟨fun a b c hab hbc => le_trans hab hbc⟩
    exact (List.sorted_insertionSort _ entries).sublist (List.take_sublist _ _)

/-- Witness for C4: an initialized two-entry sink queried with `k = 5`
returns exactly `min 5 2` results in distance order. -/
theorem C4_search_clamped_and_sorted_witness :
    ∃ rs, EmbeddingManager.searchSimilar
        ⟨some [⟨1, [0], "a", []⟩, ⟨2, [3], "b", []⟩],
         some (fun _ => [1]), 7⟩ "q" 5 = .ok rs ∧
      rs.length = min 5 ([⟨1, [0], "a", []⟩,
        (⟨2, [3], "b", []⟩ : EmbeddingManager.ChromaEntry)]).length ∧
      rs.Pairwise (fun a b : EmbeddingManager.SimilarDoc =>
        a.distance ≤ b.distance) :=
  C4_search_clamped_and_sorted _ _ (fun _ => [1]) "q" 5 rfl rfl

/-- The accumulation invariant of the `_ingest_csv_data` record loop with
the collecting sink: the loop always succeeds, the final count adds one
per surviving record, and the concatenation of all flushed documents is
the pending accumulator followed by the surviving texts. -/
theorem ingestRecords_collect_spec (cfg : CSVConnector.Config)
    (records : List (List (String × PyVal))) :
    ∀ st count docs metas,
      ∃ st', RAGService.ingestRecords RAGService.collectFlush cfg records
          st count docs metas =
        .ok (st', count + (RAGService.keptTexts cfg records).length) ∧
      (st'.map Prod.fst).flatten =
        (st.map Prod.fst).flatten ++ docs ++ RAGService.keptTexts cfg records := by
  induction records with
  | nil =>
    intro st count docs metas
    rw [RAGService.ingestRecords]
    cases hd : docs.isEmpty
    · refine ⟨st ++ [(docs, metas)], ?_, ?_⟩
      · rw [if_neg (by simp [hd])]
        rfl
      · simp [RAGService.keptTexts]
    · have : docs = [] := by
        cases docs with
        | nil => rfl
        | cons a b => simp at hd
      subst this
      refine ⟨st, ?_, ?_⟩
      · rw [if_pos rfl]
        simp [RAGService.keptTexts]
      · simp [RAGService.keptTexts]
  | cons r rest ih =>
    intro st count docs metas
    rw [RAGService.ingestRecords]
    by_cases he : pyStrip (CSVConnector.getTextContent cfg r) = ""
    · rw [if_pos he]
      obtain ⟨st', h1, h2⟩ := ih st count docs metas
      refine ⟨st', ?_, ?_⟩
      · rw [h1]
        have : RAGService.keptTexts cfg (r :: rest) =
            RAGService.keptTexts cfg rest := by
          rw [RAGService.keptTexts, List.filterMap_cons]
          simp only [if_pos he]
          rfl
        rw [this]
      · rw [h2]
        have : RAGService.keptTexts cfg (r :: rest) =
            RAGService.keptTexts cfg rest := by
          rw [RAGService.keptTexts, List.filterMap_cons]
          simp only [if_pos he]
          rfl
        rw [this]
    · rw [if_neg he]
      have hkept : RAGService.keptTexts cfg (r :: rest) =
          CSVConnector.getTextContent cfg r :: RAGService.keptTexts cfg rest := by
        rw [RAGService.keptTexts, List.filterMap_cons]
        simp only [if_neg he]
        rfl
      by_cases hb : (docs ++ [CSVConnector.getTextContent cfg r]).length ≥ 100
      · rw [if_pos hb]
        obtain ⟨st', h1, h2⟩ := ih
          (st ++ [(docs ++ [CSVConnector.getTextContent cfg r],
            metas ++ [CSVConnector.getMetadata cfg r])]) (count + 1) [] []
        refine ⟨st', ?_, ?_⟩
        · rw [RAGService.collectFlush, EmbeddingManager.exceptBind_ok, h1, hkept]
          simp only [List.length_cons]
          have harith : count + 1 + (RAGService.keptTexts cfg rest).length =
              count + ((RAGService.keptTexts cfg rest).length + 1) := by omega
          rw [harith]
        · rw [h2, hkept]
          simp
      · rw [if_neg hb]
        obtain ⟨st', h1, h2⟩ := ih st (count + 1)
          (docs ++ [CSVConnector.getTextContent cfg r])
          (metas ++ [CSVConnector.getMetadata cfg r])
        refine ⟨st', ?_, ?_⟩
        · rw [h1, hkept]
          simp only [List.length_cons]
          have harith : count + 1 + (RAGService.keptTexts cfg rest).length =
              count + ((RAGService.keptTexts cfg rest).length + 1) := by omega
          rw [harith]
        · rw [h2, hkept]
          simp

/-- C7: records whose configured text fields are all null, empty or
whitespace-only produce no document and are excluded from the reported
count: the ingestion run over a connected frame always succeeds with the
collecting sink, reports exactly one count per record with non-empty
stripped text, flushes exactly those records' texts — and a record whose
text fields are all null/empty/whitespace has empty text content. -/
theorem C7_empty_text_records_excluded (cfg : CSVConnector.Config)
    (df : CSVConnector.ProcFrame) :
    (∃ trace, RAGService.ingestCsvData RAGService.collectFlush cfg df [] =
        .ok (trace, (RAGService.keptTexts cfg
          ((CSVConnector.fetchInChunks cfg df Option.none).flatten)).length) ∧
      (trace.map Prod.fst).flatten =
        RAGService.keptTexts cfg
          ((CSVConnector.fetchInChunks cfg df Option.none).flatten))
    ∧ (∀ record : List (String × PyVal),
        (∀ col ∈ cfg.text_columns, ∀ kv,
          record.find? (fun x => x.1 == col) = some kv →
          kv.2 = PyVal.none ∨ pyStrip (pyStr kv.2) = "") →
        CSVConnector.getTextContent cfg record = "") := by
  constructor
  · obtain ⟨st', h1, h2⟩ := ingestRecords_collect_spec cfg
      ((CSVConnector.fetchInChunks cfg df Option.none).flatten) [] 0 [] []
    refine ⟨st', ?_, ?_⟩
    · rw [RAGService.ingestCsvData, h1, Nat.zero_add]
    · rw [h2]
      simp
  · intro record hall
    rw [CSVConnector.getTextContent]
    have : CSVConnector.textPieces record cfg.text_columns = [] := by
      have hsub : ∀ cols, (∀ col ∈ cols, col ∈ cfg.text_columns) →
          CSVConnector.textPieces record cols = [] := by
        intro cols
        induction cols with
        | nil => intro _; rfl
        | cons col rest ihc =>
          intro hin
          rw [CSVConnector.textPieces]
          cases hf : record.find? (fun kv => kv.1 == col) with
          | none => exact ihc fun c hc => hin c (by simp [hc])
          | some kv =>
            obtain ⟨k0, v0⟩ := kv
            rcases hall col (hin col (by simp)) (k0, v0) hf with hv | hv
            · simp only at hv
              rw [hv]
              dsimp only
              exact ihc fun c hc => hin c (by simp [hc])
            · cases v0 with
              | none => exact ihc fun c hc => hin c (by simp [hc])
              | str a =>
                simp only at hv
                dsimp only
                rw [if_pos hv]
                exact ihc fun c hc => hin c (by simp [hc])
              | bool a =>
                simp only at hv
                dsimp only
                rw [if_pos hv]
                exact ihc fun c hc => hin c (by simp [hc])
              | int a =>
                simp only at hv
                dsimp only
                rw [if_pos hv]
                exact ihc fun c hc => hin c (by simp [hc])
              | float a b =>
                simp only at hv
                dsimp only
                rw [if_pos hv]
                exact ihc fun c hc => hin c (by simp [hc])
              | timestamp a =>
                simp only at hv
                dsimp only
                rw [if_pos hv]
                exact ihc fun c hc => hin c (by simp [hc])
              | list a =>
                simp only at hv
                dsimp only
                rw [if_pos hv]
                exact ihc fun c hc => hin c (by simp [hc])
              | dict a =>
                simp only at hv
                dsimp only
                rw [if_pos hv]
                exact ihc fun c hc => hin c (by simp [hc])
      exact hsub cfg.text_columns fun c hc => hc
    rw [this]
    rfl

/-! ## Lemmas: chunked fetch -/

theorem chunksOf_flatten_fuel {α : Type} (n : Nat) (hn : n ≠ 0) :
    ∀ (fuel : Nat) (l : List α), l.length ≤ fuel →
      (CSVConnector.chunksOf n l).flatten = l := by
  intro fuel
  induction fuel with
  | zero =>
    intro l hl
    have : l = [] := List.eq_nil_of_length_eq_zero (by omega)
    subst this
    simp [CSVConnector.chunksOf]
  | succ f ih =>
    intro l hl
    cases l with
    | nil => simp [CSVConnector.chunksOf]
    | cons x t =>
      rw [CSVConnector.chunksOf]
      rw [if_neg hn]
      rw [List.flatten_cons]
      rw [ih ((x :: t).drop n) (by
        rw [List.length_drop]
        simp only [List.length_cons] at hl ⊢
        omega)]
      exact List.take_append_drop n (x :: t)

theorem chunksOf_flatten {α : Type} (n : Nat) (hn : n ≠ 0) (l : List α) :
    (CSVConnector.chunksOf n l).flatten = l :=
  chunksOf_flatten_fuel n hn l.length l le_rfl

theorem chunksOf_sizes_fuel {α : Type} (n : Nat) (hn : n ≠ 0) :
    ∀ (fuel : Nat) (l : List α), l.length ≤ fuel →
      ∀ c ∈ CSVConnector.chunksOf n l, c ≠ [] ∧ c.length ≤ n := by
  intro fuel
  induction fuel with
  | zero =>
    intro l hl c hc
    have : l = [] := List.eq_nil_of_length_eq_zero (by omega)
    subst this
    simp [CSVConnector.chunksOf] at hc
  | succ f ih =>
    intro l hl c hc
    cases l with
    | nil => simp [CSVConnector.chunksOf] at hc
    | cons x t =>
      rw [CSVConnector.chunksOf, if_neg hn] at hc
      rcases List.mem_cons.mp hc with rfl | hc
      · constructor
        · intro hnil
          have := congrArg List.length hnil
          rw [List.length_take] at this
          simp only [List.length_cons, List.length_nil] at this
          omega
        · rw [List.length_take]
          omega
      · exact ih ((x :: t).drop n) (by
          rw [List.length_drop]
          simp only [List.length_cons] at hl ⊢
          omega) c hc

theorem processColumn_length (cfg : CSVConnector.ColumnConfig)
    (cells : List (Option String)) :
    (CSVConnector.processColumn cfg cells).length = cells.length := by
  cases h : cfg.type <;> simp [CSVConnector.processColumn, h]

theorem passColumn_length (cells : List (Option String)) :
    (CSVConnector.passColumn cells).length = cells.length := by
  simp [CSVConnector.passColumn]

theorem addRequired_shape (cols : List CSVConnector.ColumnConfig) :
    ∀ acc out, CSVConnector.addRequired acc cols = .ok out →
      ∃ extra, out = acc ++ extra := by
  induction cols with
  | nil =>
    intro acc out h
    simp only [CSVConnector.addRequired, Except.ok.injEq] at h
    exact ⟨[], by rw [← h, List.append_nil]⟩
  | cons c rest ih =>
    intro acc out h
    rw [CSVConnector.addRequired] at h
    by_cases hc : c.required && !((CSVConnector.colNames acc).contains c.name)
    · rw [if_pos hc] at h
      cases hd : c.default_value with
      | none => rw [hd] at h; simp at h
      | some d =>
        rw [hd] at h
        obtain ⟨extra, hext⟩ := ih _ _ h
        refine ⟨(c.name, List.replicate (CSVConnector.nRowsOf acc) d) :: extra, ?_⟩
        rw [hext, List.append_assoc]
        rfl
    · rw [if_neg hc] at h
      exact ih _ _ h

theorem flatten_map_map {α β : Type} (f : α → β) :
    ∀ l : List (List α), (l.map (List.map f)).flatten = l.flatten.map f := by
  intro l
  induction l with
  | nil => rfl
  | cons c t ih =>
    rw [List.map_cons, List.flatten_cons, List.flatten_cons, List.map_append, ih]

theorem connect_nRows (cfg : CSVConnector.Config) (file : CSVConnector.RawFile)
    (df : CSVConnector.ProcFrame)
    (h1 : cfg.has_header = true) (h2 : cfg.skip_rows = 0)
    (h3 : cfg.max_rows = Option.none) (h4 : file.names ≠ [])
    (h : CSVConnector.connect cfg file = .ok df) :
    CSVConnector.nRowsOf df = file.rows.length := by
  obtain ⟨n0, nt, hnames⟩ := List.exists_cons_of_ne_nil h4
  have hread : CSVConnector.readCsv cfg file =
      (n0, file.rows.map fun r => r.getD 0 Option.none) ::
        (nt.enumFrom 1).map (fun jn =>
          (jn.2, file.rows.map fun r => r.getD jn.1 Option.none)) := by
    rw [CSVConnector.readCsv, hnames, h2, h3, if_pos h1]
    rfl
  rw [CSVConnector.connect, CSVConnector.processDataframe, hread] at h
  simp only [List.map_cons] at h
  obtain ⟨extra, hout⟩ := addRequired_shape cfg.columns _ _ h
  rw [hout]
  cases hf : cfg.columns.find? (fun c => c.name == n0) with
  | none =>
    simp only [List.cons_append, CSVConnector.nRowsOf, passColumn_length,
      List.length_map]
  | some c =>
    simp only [List.cons_append, CSVConnector.nRowsOf, processColumn_length,
      List.length_map]

/-- C3 counterexample: a three-row source with `chunk_size = 2`.  After
`connect`, the connector's stored dataframe — the state `fetch_in_chunks`
slices — already holds all three source rows at once, refuting the claim
that the chunked fetch never loads the entire source into memory. -/
theorem C3_counterexample :
    ∃ df, CSVConnector.connect
        { file_path := "/d.csv",
          columns := [⟨"title", .text, false, Option.none⟩],
          text_columns := ["title"], chunk_size := 2 }
        ⟨["title"], [[some "a"], [some "b"], [some "c"]]⟩ = .ok df ∧
      CSVConnector.nRowsOf df = 3 ∧
      (CSVConnector.recordsOf df).length = 3 := by
  refine ⟨_, rfl, rfl, rfl⟩

/-- C3 amended: the chunked fetch yields the loaded frame's records in
batches of the caller-specified size (every chunk non-empty and at most
the requested size, their concatenation exactly the cleaned records) —
but `connect` has already materialized the entire source in the
connector's dataframe: the loaded frame holds one row per source row. -/
theorem C3_chunks_slice_fully_loaded_frame (cfg : CSVConnector.Config)
    (file : CSVConnector.RawFile) (df : CSVConnector.ProcFrame) (n : Nat)
    (h1 : cfg.has_header = true) (h2 : cfg.skip_rows = 0)
    (h3 : cfg.max_rows = Option.none) (h4 : file.names ≠ [])
    (hn : n ≠ 0) (h : CSVConnector.connect cfg file = .ok df) :
    CSVConnector.nRowsOf df = file.rows.length
    ∧ (CSVConnector.fetchInChunks cfg df (some n)).flatten =
        (CSVConnector.recordsOf df).map CSVConnector.cleanRecord
    ∧ ∀ chunk ∈ CSVConnector.fetchInChunks cfg df (some n),
        chunk ≠ [] ∧ chunk.length ≤ n := by
  refine ⟨connect_nRows cfg file df h1 h2 h3 h4 h, ?_, ?_⟩
  · rw [CSVConnector.fetchInChunks]
    simp only [if_neg hn]
    rw [flatten_map_map]
    rw [chunksOf_flatten n hn]
  · intro chunk hc
    rw [CSVConnector.fetchInChunks] at hc
    simp only [if_neg hn, List.mem_map] at hc
    obtain ⟨c, hcmem, rfl⟩ := hc
    have := chunksOf_sizes_fuel n hn (CSVConnector.recordsOf df).length
      (CSVConnector.recordsOf df) le_rfl c hcmem
    constructor
    · intro hnil
      rw [List.map_eq_nil_iff] at hnil
      exact this.1 hnil
    · rw [List.length_map]
      exact this.2

/-- Witness for the amended C3 at the three-row source with chunk size 2:
two chunks of sizes 2 and 1 whose concatenation is all three records. -/
theorem C3_chunks_slice_fully_loaded_frame_witness :
    ∃ df, CSVConnector.connect
        { file_path := "/d.csv",
          columns := [⟨"title", .text, false, Option.none⟩],
          text_columns := ["title"], chunk_size := 2 }
        ⟨["title"], [[some "a"], [some "b"], [some "c"]]⟩ = .ok df ∧
      (CSVConnector.nRowsOf df = 3
        ∧ (CSVConnector.fetchInChunks
            { file_path := "/d.csv",
              columns := [⟨"title", .text, false, Option.none⟩],
              text_columns := ["title"], chunk_size := 2 } df (some 2)).flatten =
            (CSVConnector.recordsOf df).map CSVConnector.cleanRecord
        ∧ ∀ chunk ∈ CSVConnector.fetchInChunks
            { file_path := "/d.csv",
              columns := [⟨"title", .text, false, Option.none⟩],
              text_columns := ["title"], chunk_size := 2 } df (some 2),
            chunk ≠ [] ∧ chunk.length ≤ 2) :=
  ⟨_, rfl, C3_chunks_slice_fully_loaded_frame _
    ⟨["title"], [[some "a"], [some "b"], [some "c"]]⟩ _ 2
    rfl rfl rfl (by simp) (by decide) rfl⟩

/-! ## Lemmas: the required-column check of `_process_dataframe` -/

theorem colNames_append (a b : List (String × List PyVal)) :
    CSVConnector.colNames (a ++ b) =
      CSVConnector.colNames a ++ CSVConnector.colNames b := by
  simp [CSVConnector.colNames]

theorem colNames_map (f : (String × List (Option String)) → (String × List PyVal))
    (hf : ∀ nc, (f nc).1 = nc.1) (df : List (String × List (Option String))) :
    CSVConnector.colNames (df.map f) = df.map (·.1) := by
  simp only [CSVConnector.colNames, List.map_map]
  exact List.map_congr_left fun nc _ => hf nc

theorem colNames_readCsv_aux (rows : List (List (Option String))) :
    ∀ (i : Nat) (names : List String),
      ((names.enumFrom i).map fun jn =>
        ((jn.2 : String), rows.map fun r => r.getD jn.1 Option.none)).map (·.1) =
        names := by
  intro i names
  induction names generalizing i with
  | nil => rfl
  | cons n tl ih =>
    show n :: _ = n :: tl
    rw [ih (i + 1)]

theorem colNames_readCsv (cfg : CSVConnector.Config) (file : CSVConnector.RawFile)
    (h1 : cfg.has_header = true) :
    (CSVConnector.readCsv cfg file).map (fun nc => nc.1) = file.names := by
  rw [CSVConnector.readCsv, if_pos h1]
  exact colNames_readCsv_aux _ 0 file.names

theorem addRequired_ok (cols : List CSVConnector.ColumnConfig) :
    ∀ acc, (∀ c ∈ cols, c.required = true → c.default_value = Option.none →
        c.name ∈ CSVConnector.colNames acc) →
      ∃ out, CSVConnector.addRequired acc cols = .ok out := by
  induction cols with
  | nil => intro acc _; exact ⟨acc, rfl⟩
  | cons c rest ih =>
    intro acc hall
    rw [CSVConnector.addRequired]
    by_cases hc : (c.required && !((CSVConnector.colNames acc).contains c.name)) = true
    · rw [if_pos hc]
      simp only [Bool.and_eq_true, Bool.not_eq_true'] at hc
      obtain ⟨hreq, hcont⟩ := hc
      cases hd : c.default_value with
      | none =>
        have hmem := hall c (List.mem_cons_self c rest) hreq hd
        simp [hmem] at hcont
      | some d =>
        apply ih
        intro c' hc' hr hdv
        have := hall c' (List.mem_cons_of_mem _ hc') hr hdv
        rw [colNames_append]
        exact List.mem_append_left _ this
    · rw [if_neg hc]
      apply ih
      intro c' hc' hr hdv
      exact hall c' (List.mem_cons_of_mem _ hc') hr hdv

theorem addRequired_err (cols : List CSVConnector.ColumnConfig) :
    ∀ acc e, CSVConnector.addRequired acc cols = .error e →
      ∃ c ∈ cols, c.required = true ∧ c.default_value = Option.none ∧
        c.name ∉ CSVConnector.colNames acc ∧
        e = .valueError ("Required column " ++ c.name ++
          " missing and no default value provided") := by
  induction cols with
  | nil => intro acc e h; simp [CSVConnector.addRequired] at h
  | cons c rest ih =>
    intro acc e h
    rw [CSVConnector.addRequired] at h
    by_cases hc : (c.required && !((CSVConnector.colNames acc).contains c.name)) = true
    · rw [if_pos hc] at h
      simp only [Bool.and_eq_true, Bool.not_eq_true'] at hc
      obtain ⟨hreq, hcont⟩ := hc
      cases hd : c.default_value with
      | none =>
        rw [hd] at h
        refine ⟨c, List.mem_cons_self c rest, hreq, hd, ?_, ?_⟩
        · intro hmem
          simp [hmem] at hcont
        · injection h with h2
          exact h2.symm
      | some d =>
        rw [hd] at h
        obtain ⟨c', hc', hreq', hdv', hnmem', he⟩ := ih _ _ h
        refine ⟨c', List.mem_cons_of_mem c hc', hreq', hdv', ?_, he⟩
        intro hmem
        apply hnmem'
        rw [colNames_append]
        exact List.mem_append_left _ hmem
    · rw [if_neg hc] at h
      obtain ⟨c', hc', hreq', hdv', hnmem', he⟩ := ih _ _ h
      exact ⟨c', List.mem_cons_of_mem c hc', hreq', hdv', hnmem', he⟩

/-- Column names are preserved by the per-column processing step of
`_process_dataframe`, so the required check sees exactly the file's
header names. -/
theorem colNames_connect_acc (cfg : CSVConnector.Config)
    (file : CSVConnector.RawFile) (h1 : cfg.has_header = true) :
    CSVConnector.colNames ((CSVConnector.readCsv cfg file).map fun nc =>
      match cfg.columns.find? (fun c => c.name == nc.1) with
      | some c => (nc.1, CSVConnector.processColumn c nc.2)
      | Option.none => (nc.1, CSVConnector.passColumn nc.2)) = file.names := by
  rw [colNames_map]
  · exact colNames_readCsv cfg file h1
  · intro nc
    cases cfg.columns.find? (fun c => c.name == nc.1) <;> rfl

/-- C2 counterexample: a record (row 2) whose `required=true`, no-default
`author` field is missing does NOT abort the load — the column-level
check passes because the `author` column exists, `connect` succeeds, and
the missing cell is silently coerced (`NaN` stringifies to `"nan"`, which
the text coercion maps to `""`). -/
theorem C2_counterexample :
    ∃ df, CSVConnector.connect
        { file_path := "/d.csv",
          columns := [⟨"author", .text, true, Option.none⟩,
                      ⟨"title", .text, false, Option.none⟩],
          text_columns := ["title"], chunk_size := 100 }
        ⟨["author", "title"],
         [[some "alice", some "a"], [Option.none, some "b"]]⟩ = .ok df ∧
      CSVConnector.recordsOf df =
        [[("author", PyVal.str "alice"), ("title", PyVal.str "a")],
         [("author", PyVal.str ""), ("title", PyVal.str "b")]] :=
  ⟨_, rfl, rfl⟩

/-- C2 amended: the required/no-default check of `_process_dataframe` is
COLUMN-level and runs inside `connect`, before any record is iterated or
flushed.  If every `required=true`, no-default column name appears in the
file header, the load never aborts — a record-level missing value is
coerced, not rejected; and when `connect` does error, the error names a
missing required column (`ValueError`, not a record-level
`SchemaViolation`) and the whole ingestion pipeline propagates it with
the embedding sink never invoked (nothing was flushed, so there is
nothing to roll back). -/
theorem C2_required_abort_is_column_level {σ : Type}
    (flush : σ → List String → List (List (String × PyVal)) → Except PyErr σ)
    (cfg : CSVConnector.Config) (file : CSVConnector.RawFile) (st : σ)
    (h1 : cfg.has_header = true) :
    ((∀ c ∈ cfg.columns, c.required = true → c.default_value = Option.none →
        c.name ∈ file.names) → ∃ df, CSVConnector.connect cfg file = .ok df)
    ∧ ∀ e, CSVConnector.connect cfg file = .error e →
        (∃ c ∈ cfg.columns, c.required = true ∧ c.default_value = Option.none ∧
          c.name ∉ file.names ∧
          e = .valueError ("Required column " ++ c.name ++
            " missing and no default value provided"))
        ∧ RAGService.runCsvIngestion flush cfg file st = .error e := by
  constructor
  · intro hall
    rw [CSVConnector.connect, CSVConnector.processDataframe]
    apply addRequired_ok
    intro c hc hr hd
    rw [colNames_connect_acc cfg file h1]
    exact hall c hc hr hd
  · intro e he
    constructor
    · rw [CSVConnector.connect, CSVConnector.processDataframe] at he
      obtain ⟨c, hc, hreq, hdv, hnmem, hee⟩ := addRequired_err cfg.columns _ _ he
      rw [colNames_connect_acc cfg file h1] at hnmem
      exact ⟨c, hc, hreq, hdv, hnmem, hee⟩
    · rw [RAGService.runCsvIngestion, he]
      rfl

/-- Witness for the amended C2: a configuration requiring an `author`
column (no default) against a file whose header lacks it. -/
theorem C2_required_abort_is_column_level_witness :
    ((∀ c ∈ [(⟨"author", .text, true, Option.none⟩ : CSVConnector.ColumnConfig)],
        c.required = true → c.default_value = Option.none →
        c.name ∈ ["title"]) →
      ∃ df, CSVConnector.connect
        { file_path := "/d.csv",
          columns := [⟨"author", .text, true, Option.none⟩],
          text_columns := ["title"], chunk_size := 100 }
        ⟨["title"], [[some "a"]]⟩ = .ok df)
    ∧ ∀ e, CSVConnector.connect
        { file_path := "/d.csv",
          columns := [⟨"author", .text, true, Option.none⟩],
          text_columns := ["title"], chunk_size := 100 }
        ⟨["title"], [[some "a"]]⟩ = .error e →
        (∃ c ∈ [(⟨"author", .text, true, Option.none⟩ : CSVConnector.ColumnConfig)],
          c.required = true ∧ c.default_value = Option.none ∧
          c.name ∉ ["title"] ∧
          e = .valueError ("Required column " ++ c.name ++
            " missing and no default value provided"))
        ∧ RAGService.runCsvIngestion RAGService.collectFlush
            { file_path := "/d.csv",
              columns := [⟨"author", .text, true, Option.none⟩],
              text_columns := ["title"], chunk_size := 100 }
            ⟨["title"], [[some "a"]]⟩ [] = .error e :=
  C2_required_abort_is_column_level RAGService.collectFlush
    { file_path := "/d.csv",
      columns := [⟨"author", .text, true, Option.none⟩],
      text_columns := ["title"], chunk_size := 100 }
    ⟨["title"], [[some "a"]]⟩ [] rfl

/-- C1: `_ingest_csv_data` invokes
`add_documents(documents, metadatas)` — a list of text strings and a
list of metadata dicts — but `EmbeddingManager.add_documents` is
declared `(documents: List[Dict], text_fields: List[str])`.  Running the
service's own flush against the real manager on a single non-empty
record therefore raises `TypeError` from `field in document` (a dict
tested against a string) instead of skipping empties, embedding, and
returning a count: the specified contract is unreachable from the
ingestion path. -/
theorem C1_ingest_flush_type_mismatch :
    RAGService.ingestRecords
      (fun (m : EmbeddingManager.Manager) docs metas =>
        (EmbeddingManager.addDocuments m (docs.map PyVal.str)
          (metas.map PyVal.dict)).map Prod.fst)
      { file_path := "/d.csv",
        columns := [⟨"title", .text, false, Option.none⟩],
        text_columns := ["title"], chunk_size := 100 }
      [[("title", PyVal.str "Document text")]]
      ⟨some [], some (fun _ => [0]), 0⟩ 0 [] [] =
    .error (.typeError "'in <string>' requires string as left operand") := rfl
